import Mathlib

/-!
Verification development for the receipt field-resolution core of the
Receipt_Spendle backend (`app/api.py`, `app/parser.py`, `app/ph_rules.py`).
Python functions are shallowly embedded: floats become rationals, optional
values become `Option`, Python truthiness of strings/options is modelled
explicitly, and Python's stable `sorted` becomes insertion sort.
-/

set_option maxRecDepth 150000
set_option maxHeartbeats 1600000

namespace Spendle

/-! ## Python string primitives -/

/-- ASCII whitespace as recognised by Python's `str.strip` and `\s`. -/
def wsChar (c : Char) : Bool :=
  c = ' ' || c = '\t' || c = '\n' || c = '\r' || c = '\x0b' || c = '\x0c'

/-- Python `str.strip()` on a character list. -/
def trimL (l : List Char) : List Char :=
  ((l.dropWhile wsChar).reverse.dropWhile wsChar).reverse

/-- ASCII-only uppercasing of one character (Python `str.upper` on ASCII input). -/
def upChar (c : Char) : Char :=
  if 'a' ≤ c ∧ c ≤ 'z' then Char.ofNat (c.toNat - 32) else c

/-- ASCII-only lowercasing of one character (Python `str.lower` on ASCII input). -/
def lowChar (c : Char) : Char :=
  if 'A' ≤ c ∧ c ≤ 'Z' then Char.ofNat (c.toNat + 32) else c

def upperL (l : List Char) : List Char := l.map upChar

def lowerL (l : List Char) : List Char := l.map lowChar

/-- Python `str.strip()` on a `String`. -/
def pyStrip (s : String) : String := String.mk (trimL s.data)

/-- Python `str.upper()` (ASCII fragment) on a `String`. -/
def pyUpper (s : String) : String := String.mk (upperL s.data)

/-- Substring containment: Python's `needle in hay`. -/
def containsL (needle hay : List Char) : Bool :=
  hay.tails.any (fun t => needle.isPrefixOf t)

/-- Python truthiness of an optional string: `None` and `""` are falsy. -/
def truthyS (o : Option String) : Bool :=
  match o with
  | none => false
  | some s => !(s = "")

/-! Executable order primitives on `ℚ` (Python's `min`, `max`, `abs`).
Mathlib's lattice operations on `ℚ` do not reduce in the kernel, so the
embedding uses these definitionally equal versions. -/

def qmin (a b : ℚ) : ℚ := if a ≤ b then a else b

def qmax (a b : ℚ) : ℚ := if a ≤ b then b else a

def qabs (a : ℚ) : ℚ := if a < 0 then -a else a

theorem qmin_eq (a b : ℚ) : qmin a b = min a b := (min_def a b).symm

theorem qmax_eq (a b : ℚ) : qmax a b = max a b := (max_def a b).symm

theorem qabs_eq (a : ℚ) : qabs a = |a| := by
  unfold qabs
  by_cases h : a < 0
  · rw [if_pos h, abs_of_neg h]
  · rw [if_neg h, abs_of_nonneg (le_of_not_lt h)]

/-! ## The source reconciler (`app/api.py`, `resolve_fields`)

`resolve_fields` builds a candidate list from the OCR sources and then
selects, consensus-checks and back-fills over that list (lines 434-483).
The per-candidate record carries source name, the three fields, a
confidence and a priority weight. -/

structure Candidate where
  source : String
  store : Option String
  total : Option ℚ
  date : Option String
  confidence : ℚ
  priority : ℚ
deriving DecidableEq, Repr, Inhabited

/-- `close_amt` from `resolve_fields`: both totals present and within 0.01. -/
def close_amt (a b : Option ℚ) : Bool :=
  match a, b with
  | some x, some y => qabs (x - y) ≤ 1/100
  | _, _ => false

/-- `eq_store` from `resolve_fields`: both stores truthy (non-null, non-empty)
and equal after `strip().upper()`. -/
def eq_store (a b : Option String) : Bool :=
  match a, b with
  | some x, some y =>
      if x = "" ∨ y = "" then false
      else pyUpper (pyStrip x) = pyUpper (pyStrip y)
  | _, _ => false

/-- The candidate score from `resolve_fields` (lines 438-452). -/
def score (cand : Candidate) : ℚ :=
  (if truthyS cand.store then 2 else 0)
  + (if cand.total.isSome then 35/10 else 0)
  + (if truthyS cand.date then 12/10 else 0)
  + qmin cand.confidence 100 / 40
  + qmax 0 (3 - cand.priority)
  + (if cand.source = "ocr_space" then 1/4 else 0)
  + (if cand.source = "paddle_vl" then 1/2 else 0)

/-- Index of the first element attaining the maximal value of `f`
(Python's `max(..., key=f)` returns the first maximum). -/
def firstMaxIdx (f : α → ℚ) : List α → ℕ
  | [] => 0
  | x :: xs =>
      match xs with
      | [] => 0
      | _ :: _ =>
          let r := firstMaxIdx f xs
          if f x < f (xs.getD r x) then r + 1 else 0

/-- The agreement test of the consensus loop (lines 461-464): same store per
`eq_store`, close totals per `close_amt`, and literally equal non-null dates. -/
def agrees (cand best : Candidate) : Bool :=
  eq_store cand.store best.store && close_amt cand.total best.total
    && (cand.date = best.date && best.date.isSome)

structure ResolvedFields where
  store : Option String
  total : Option ℚ
  date : Option String
  source_tag : String
deriving DecidableEq, Repr

/-- One back-fill step for a single field: adopt the candidate's value when
the accumulated value is still null and the candidate's value is truthy. -/
def fillFirst (p : β → Bool) (proj : β → Option α) (l : List β) (init : Option α) :
    Option α :=
  l.foldl (fun acc c => if acc.isNone && p c then proj c else acc) init

/-- The reconciliation core of `resolve_fields` (lines 434-483): selection of
the best-scoring candidate, consensus detection against every other candidate,
and back-fill of null fields over candidates sorted by ascending priority. -/
def resolve_from_candidates (candidates : List Candidate) : ResolvedFields :=
  match candidates with
  | [] => ⟨none, none, none, "unknown"⟩
  | _ :: _ =>
      let bIdx := firstMaxIdx score candidates
      let best := candidates.getD bIdx default
      let consensus := (List.range candidates.length).any
        (fun i => decide (i ≠ bIdx) && agrees (candidates.getD i default) best)
      let source_tag := if consensus then "consensus" else best.source
      let sorted := List.insertionSort (fun a b => a.priority ≤ b.priority) candidates
      let store := fillFirst (fun c => truthyS c.store) (fun c => c.store) sorted best.store
      let total := fillFirst (fun c => c.total.isSome) (fun c => c.total) sorted best.total
      let date := fillFirst (fun c => truthyS c.date) (fun c => c.date) sorted best.date
      ⟨store, total, date, source_tag⟩

/-- Record passed for the optional `paddle` argument of `resolve_fields`. -/
structure PaddleRec where
  store : Option String
  total : Option ℚ
  date : Option String
  confidence : Option ℚ
deriving DecidableEq, Repr

/-- Candidate-list construction of `resolve_fields` (lines 379-432): the
tesseract candidate is always appended; ocr_space and vision candidates are
appended when their payloads are ok with non-empty text; the paddle candidate
is appended when a paddle record is given.  The per-source parsed fields are
parameters, since parsing happens before this list is built. -/
def build_candidates (t_store : Option String) (t_total : Option ℚ) (t_date : Option String)
    (tess_conf : Option ℚ)
    (ocrs_ok : Bool) (s_store : Option String) (s_total : Option ℚ) (s_date : Option String)
    (vision_ok : Bool) (v_store : Option String) (v_total : Option ℚ) (v_date : Option String)
    (v_conf : Option ℚ) (paddle : Option PaddleRec) : List Candidate :=
  [⟨"tesseract", t_store, t_total, t_date, tess_conf.getD 0, 0⟩]
  ++ (if ocrs_ok then [⟨"ocr_space", s_store, s_total, s_date, 70, 1/2⟩] else [])
  ++ (if vision_ok then
        [⟨"vision", v_store, v_total, v_date,
          (match v_conf with | some c => c * 100 | none => 50), 2⟩] else [])
  ++ (match paddle with
      | some p => [⟨"paddle_vl", p.store, p.total, p.date, p.confidence.getD 85, -1/5⟩]
      | none => [])

/-! ## Lemmas about first-maximum selection and back-fill -/

theorem getD_mem {α} (l : List α) (n : ℕ) (d : α) (h : n < l.length) :
    l.getD n d ∈ l := by
  rw [List.getD_eq_getElem l d h]
  exact List.getElem_mem h

theorem firstMaxIdx_cons₂ {α} (f : α → ℚ) (x y : α) (ys : List α) :
    firstMaxIdx f (x :: y :: ys) =
      if f x < f ((y :: ys).getD (firstMaxIdx f (y :: ys)) x) then firstMaxIdx f (y :: ys) + 1
      else 0 := rfl

theorem firstMaxIdx_spec {α} [Inhabited α] (f : α → ℚ) (l : List α) (hl : l ≠ []) :
    firstMaxIdx f l < l.length ∧
    (∀ j < l.length, f (l.getD j default) ≤ f (l.getD (firstMaxIdx f l) default)) ∧
    (∀ j < firstMaxIdx f l, f (l.getD j default) < f (l.getD (firstMaxIdx f l) default)) := by
  induction l with
  | nil => exact absurd rfl hl
  | cons x xs ih =>
    cases xs with
    | nil =>
      refine ⟨by simp [firstMaxIdx], ?_, ?_⟩
      · intro j hj
        simp only [List.length_cons, List.length_nil] at hj
        have hj0 : j = 0 := by omega
        subst hj0
        simp [firstMaxIdx]
      · intro j hj
        simp [firstMaxIdx] at hj
    | cons y ys =>
      obtain ⟨ih1, ih2, ih3⟩ := ih (by simp)
      have hgd : (y :: ys).getD (firstMaxIdx f (y :: ys)) x
          = (y :: ys).getD (firstMaxIdx f (y :: ys)) default := by
        rw [List.getD_eq_getElem _ x ih1, List.getD_eq_getElem _ default ih1]
      by_cases hx : f x < f ((y :: ys).getD (firstMaxIdx f (y :: ys)) x)
      · have hidx : firstMaxIdx f (x :: y :: ys) = firstMaxIdx f (y :: ys) + 1 := by
          rw [firstMaxIdx_cons₂, if_pos hx]
        have hx' : f x < f ((y :: ys).getD (firstMaxIdx f (y :: ys)) default) := hgd ▸ hx
        refine ⟨?_, ?_, ?_⟩
        · rw [hidx]
          simp only [List.length_cons] at ih1 ⊢
          omega
        · intro j hj
          rw [hidx, List.getD_cons_succ]
          cases j with
          | zero => rw [List.getD_cons_zero]; exact le_of_lt hx'
          | succ k =>
            rw [List.getD_cons_succ]
            apply ih2
            simp only [List.length_cons] at hj ⊢
            omega
        · intro j hj
          rw [hidx] at hj
          rw [hidx, List.getD_cons_succ]
          cases j with
          | zero => rw [List.getD_cons_zero]; exact hx'
          | succ k =>
            rw [List.getD_cons_succ]
            exact ih3 k (by omega)
      · have hidx : firstMaxIdx f (x :: y :: ys) = 0 := by
          rw [firstMaxIdx_cons₂, if_neg hx]
        have hx' : f ((y :: ys).getD (firstMaxIdx f (y :: ys)) default) ≤ f x := by
          rw [← hgd]; exact le_of_not_lt hx
        refine ⟨by rw [hidx]; simp, ?_, ?_⟩
        · intro j hj
          rw [hidx, List.getD_cons_zero]
          cases j with
          | zero => rw [List.getD_cons_zero]
          | succ k =>
            rw [List.getD_cons_succ]
            refine le_trans (ih2 k ?_) hx'
            simp only [List.length_cons] at hj ⊢
            omega
        · intro j hj
          rw [hidx] at hj
          exact absurd hj (Nat.not_lt_zero j)

theorem fillFirst_some {α β} (p : β → Bool) (proj : β → Option α) (l : List β) (a : α) :
    fillFirst p proj l (some a) = some a := by
  induction l with
  | nil => rfl
  | cons c cs ih => simpa [fillFirst] using ih

theorem fillFirst_none {α β} (p : β → Bool) (proj : β → Option α)
    (hp : ∀ c, p c = true → (proj c).isSome) (l : List β) :
    fillFirst p proj l none = (l.find? p).bind proj := by
  induction l with
  | nil => rfl
  | cons c cs ih =>
    by_cases hpc : p c = true
    · obtain ⟨a, ha⟩ := Option.isSome_iff_exists.mp (hp c hpc)
      simp [fillFirst, List.find?, hpc, ha]
      simpa [fillFirst, ha] using fillFirst_some p proj cs a
    · simp only [Bool.not_eq_true] at hpc
      simp [fillFirst, List.find?, hpc]
      simpa [fillFirst] using ih

/-- Unfolding of the source tag computed by `resolve_from_candidates` on a
non-empty candidate list. -/
theorem resolve_tag_eq (l : List Candidate) (hl : l ≠ []) :
    (resolve_from_candidates l).source_tag =
      (if (List.range l.length).any
            (fun i => decide (i ≠ firstMaxIdx score l) &&
              agrees (l.getD i default) (l.getD (firstMaxIdx score l) default))
        then "consensus" else (l.getD (firstMaxIdx score l) default).source) := by
  obtain ⟨c, t, rfl⟩ := List.exists_cons_of_ne_nil hl
  simp only [resolve_from_candidates]

/-- Unfolding of the three back-filled fields computed by
`resolve_from_candidates` on a non-empty candidate list. -/
theorem resolve_fields_eq (l : List Candidate) (hl : l ≠ []) :
    (resolve_from_candidates l).store
        = fillFirst (fun c => truthyS c.store) (fun c => c.store)
            (List.insertionSort (fun a b => a.priority ≤ b.priority) l)
            (l.getD (firstMaxIdx score l) default).store ∧
    (resolve_from_candidates l).total
        = fillFirst (fun c => c.total.isSome) (fun c => c.total)
            (List.insertionSort (fun a b => a.priority ≤ b.priority) l)
            (l.getD (firstMaxIdx score l) default).total ∧
    (resolve_from_candidates l).date
        = fillFirst (fun c => truthyS c.date) (fun c => c.date)
            (List.insertionSort (fun a b => a.priority ≤ b.priority) l)
            (l.getD (firstMaxIdx score l) default).date := by
  obtain ⟨c, t, rfl⟩ := List.exists_cons_of_ne_nil hl
  refine ⟨?_, ?_, ?_⟩ <;> simp only [resolve_from_candidates]

/-! ## C9: empty candidate list -/

/-- C9: on an empty candidate list the reconciler returns the all-null record
tagged "unknown" instead of failing. -/
theorem resolve_empty_unknown :
    resolve_from_candidates [] = ⟨none, none, none, "unknown"⟩ := rfl

/-! ## C1: consensus detection -/

/-- The agreement relation exactly as the claim words it: stores equal
case-insensitively after trimming, totals within 0.01 absolute, dates
identical non-null strings. -/
def claim_agrees (cand best : Candidate) : Bool :=
  (match cand.store, best.store with
   | some x, some y => pyUpper (pyStrip x) = pyUpper (pyStrip y)
   | _, _ => false)
  && (match cand.total, best.total with
      | some a, some b => qabs (a - b) ≤ 1/100
      | _, _ => false)
  && (match cand.date, best.date with
      | some d, some e => d = e
      | _, _ => false)

/-- The amended agreement relation: as the claim, except that both stores must
additionally be non-empty strings (the code's `eq_store` treats `""` as
absent). -/
def claim_agrees_amended (cand best : Candidate) : Bool :=
  (match cand.store, best.store with
   | some x, some y => !(x = "") && !(y = "") && (pyUpper (pyStrip x) = pyUpper (pyStrip y))
   | _, _ => false)
  && (match cand.total, best.total with
      | some a, some b => qabs (a - b) ≤ 1/100
      | _, _ => false)
  && (match cand.date, best.date with
      | some d, some e => d = e
      | _, _ => false)

theorem claim_agrees_amended_eq (c b : Candidate) :
    claim_agrees_amended c b = agrees c b := by
  unfold claim_agrees_amended agrees eq_store close_amt
  cases hcs : c.store with
  | none => cases b.store <;> simp
  | some x =>
    cases hbs : b.store with
    | none => simp
    | some y =>
      by_cases hx : x = "" <;> by_cases hy : y = "" <;>
        simp only [hx, hy, if_pos, if_neg, Bool.false_and, Bool.and_false, Bool.not_false,
          decide_True, decide_False, Bool.not_true, Bool.true_and, or_true, true_or,
          or_false, false_or, ite_true, ite_false, not_false_eq_true, not_true_eq_false] <;>
        first
          | rfl
          | (cases c.total <;> cases b.total <;> cases hcd : c.date <;> cases hbd : b.date <;>
              simp [Bool.and_assoc])

unseal Rat.add Rat.sub Rat.mul Rat.inv in
/-- C1 counterexample: two candidates with identical non-null stores (both
`""`), totals and dates, and different source names, agree in the claim's
sense, yet the reconciler does not report consensus: it returns the best
candidate's source name. -/
theorem resolve_consensus_cex :
    claim_agrees (⟨"tesseract", some "", some 5, some "2024-01-01", 0, 0⟩ : Candidate)
        (⟨"ocr_space", some "", some 5, some "2024-01-01", 70, 1/2⟩ : Candidate) = true ∧
    (⟨"tesseract", some "", some 5, some "2024-01-01", 0, 0⟩ : Candidate).store.isSome ∧
    ("tesseract" : String) ≠ "ocr_space" ∧
    (resolve_from_candidates
        [⟨"tesseract", some "", some 5, some "2024-01-01", 0, 0⟩,
         ⟨"ocr_space", some "", some 5, some "2024-01-01", 70, 1/2⟩]).source_tag
      = "ocr_space" ∧
    (resolve_from_candidates
        [⟨"tesseract", some "", some 5, some "2024-01-01", 0, 0⟩,
         ⟨"ocr_space", some "", some 5, some "2024-01-01", 70, 1/2⟩]).source_tag
      ≠ "consensus" := by decide

/-- C1 (amended): over any non-empty candidate list whose source names avoid
the sentinel "consensus", the best candidate is the first one attaining the
maximal score, the tag is "consensus" iff some other candidate agrees with the
best on all three fields — stores non-null, non-empty, and equal
case-insensitively after trimming; totals within 0.01; dates identical
non-null — and otherwise the tag is the best candidate's source name. -/
theorem resolve_consensus_iff (l : List Candidate) (hl : l ≠ [])
    (hsrc : ∀ c ∈ l, c.source ≠ "consensus") :
    firstMaxIdx score l < l.length ∧
    (∀ j < l.length, score (l.getD j default) ≤ score (l.getD (firstMaxIdx score l) default)) ∧
    (∀ j < firstMaxIdx score l,
      score (l.getD j default) < score (l.getD (firstMaxIdx score l) default)) ∧
    ((resolve_from_candidates l).source_tag = "consensus" ↔
      ∃ i < l.length, i ≠ firstMaxIdx score l ∧
        claim_agrees_amended (l.getD i default) (l.getD (firstMaxIdx score l) default) = true) ∧
    ((resolve_from_candidates l).source_tag = "consensus" ∨
      (resolve_from_candidates l).source_tag
        = (l.getD (firstMaxIdx score l) default).source) := by
  obtain ⟨h1, h2, h3⟩ := firstMaxIdx_spec score l hl
  have htag := resolve_tag_eq l hl
  have hmem : l.getD (firstMaxIdx score l) default ∈ l := getD_mem l _ default h1
  have hiff : ((List.range l.length).any
        (fun i => decide (i ≠ firstMaxIdx score l) &&
          agrees (l.getD i default) (l.getD (firstMaxIdx score l) default)) = true) ↔
      (∃ i < l.length, i ≠ firstMaxIdx score l ∧
        claim_agrees_amended (l.getD i default) (l.getD (firstMaxIdx score l) default)
          = true) := by
    simp only [List.any_eq_true, List.mem_range, Bool.and_eq_true, decide_eq_true_eq,
      claim_agrees_amended_eq]
  refine ⟨h1, h2, h3, ?_, ?_⟩
  · rw [htag]
    cases hany : (List.range l.length).any
        (fun i => decide (i ≠ firstMaxIdx score l) &&
          agrees (l.getD i default) (l.getD (firstMaxIdx score l) default)) with
    | true =>
      simp only [if_pos rfl]
      exact ⟨fun _ => hiff.mp hany, fun _ => rfl⟩
    | false =>
      simp only [Bool.false_eq_true, if_neg, ite_false]
      constructor
      · intro h
        exact absurd h (hsrc _ hmem)
      · intro hex
        exact absurd (hiff.mpr hex) (by rw [hany]; exact Bool.false_ne_true)
  · rw [htag]
    split
    · exact Or.inl rfl
    · exact Or.inr rfl

unseal Rat.add Rat.sub Rat.mul Rat.inv in
/-- C1 witness: two candidates with equal (non-empty) stores after
trim/uppercase, equal totals and equal dates from different sources are
reported as "consensus". -/
theorem resolve_consensus_iff_witness :
    (resolve_from_candidates
        [⟨"tesseract", some "JOLLIBEE", some 100, some "2024-01-01", 0, 0⟩,
         ⟨"vision", some " jollibee ", some 100, some "2024-01-01", 50, 2⟩]).source_tag
      = "consensus" := by
  have h := resolve_consensus_iff
    [⟨"tesseract", some "JOLLIBEE", some 100, some "2024-01-01", 0, 0⟩,
     ⟨"vision", some " jollibee ", some 100, some "2024-01-01", 50, 2⟩]
    (by decide) (by decide)
  exact h.2.2.2.1.mpr ⟨1, by decide, by decide, by decide⟩

/-! ## C2: back-fill -/

/-- C2 counterexample: the best candidate's store is null, and the first
non-null store among candidates in ascending-priority order is `""`, so the
claim predicts a result store of `""`; the code instead skips the empty
string and returns `"ACME"`. -/
def backfillCexList : List Candidate :=
  [⟨"tesseract", none, some 100, some "2024-01-01", 90, 0⟩,
   ⟨"b", some "", none, none, 0, 1⟩,
   ⟨"c", some "ACME", none, none, 0, 2⟩]

unseal Rat.add Rat.sub Rat.mul Rat.inv in
theorem resolve_backfill_cex :
    (backfillCexList.getD (firstMaxIdx score backfillCexList) default).store = none ∧
    ((List.insertionSort (fun a b => a.priority ≤ b.priority) backfillCexList).find?
        (fun c => c.store.isSome)).bind (fun c => c.store) = some "" ∧
    (resolve_from_candidates backfillCexList).store = some "ACME" := by
  decide

/-- C2 (amended): every field that is non-null in the selected best candidate
appears unchanged in the result, and every field that is null in the best
candidate is filled with the first non-null, non-empty (for strings) value
among the candidates in ascending-priority stable order. -/
theorem resolve_backfill (l : List Candidate) (hl : l ≠ []) :
    (resolve_from_candidates l).store =
      (match (l.getD (firstMaxIdx score l) default).store with
       | some s => some s
       | none => ((List.insertionSort (fun a b => a.priority ≤ b.priority) l).find?
            (fun c => truthyS c.store)).bind (fun c => c.store)) ∧
    (resolve_from_candidates l).total =
      (match (l.getD (firstMaxIdx score l) default).total with
       | some q => some q
       | none => ((List.insertionSort (fun a b => a.priority ≤ b.priority) l).find?
            (fun c => c.total.isSome)).bind (fun c => c.total)) ∧
    (resolve_from_candidates l).date =
      (match (l.getD (firstMaxIdx score l) default).date with
       | some d => some d
       | none => ((List.insertionSort (fun a b => a.priority ≤ b.priority) l).find?
            (fun c => truthyS c.date)).bind (fun c => c.date)) := by
  obtain ⟨hs, ht, hd⟩ := resolve_fields_eq l hl
  have hpS : ∀ c : Candidate, truthyS c.store = true → c.store.isSome := by
    intro c hc
    cases h : c.store with
    | none => rw [h] at hc; simp [truthyS] at hc
    | some s => simp
  have hpT : ∀ c : Candidate, (c.total.isSome : Bool) = true → c.total.isSome := fun _ h => h
  have hpD : ∀ c : Candidate, truthyS c.date = true → c.date.isSome := by
    intro c hc
    cases h : c.date with
    | none => rw [h] at hc; simp [truthyS] at hc
    | some s => simp
  refine ⟨?_, ?_, ?_⟩
  · rw [hs]
    cases hb : (l.getD (firstMaxIdx score l) default).store with
    | some s => exact fillFirst_some _ _ _ s
    | none => exact fillFirst_none _ _ hpS _
  · rw [ht]
    cases hb : (l.getD (firstMaxIdx score l) default).total with
    | some q => exact fillFirst_some _ _ _ q
    | none => exact fillFirst_none _ _ hpT _
  · rw [hd]
    cases hb : (l.getD (firstMaxIdx score l) default).date with
    | some d => exact fillFirst_some _ _ _ d
    | none => exact fillFirst_none _ _ hpD _

unseal Rat.add Rat.sub Rat.mul Rat.inv in
/-- C2 witness: the spec's own example — candidate A with null store and
candidate B contributing the store — resolves to `{ACME, 100.00, 2024-01-01}`. -/
theorem resolve_backfill_witness :
    (resolve_from_candidates
        [⟨"tesseract", none, some 100, some "2024-01-01", 0, 0⟩,
         ⟨"vision", some "ACME", none, none, 0, 2⟩]).store = some "ACME" ∧
    (resolve_from_candidates
        [⟨"tesseract", none, some 100, some "2024-01-01", 0, 0⟩,
         ⟨"vision", some "ACME", none, none, 0, 2⟩]).total = some 100 ∧
    (resolve_from_candidates
        [⟨"tesseract", none, some 100, some "2024-01-01", 0, 0⟩,
         ⟨"vision", some "ACME", none, none, 0, 2⟩]).date = some "2024-01-01" := by
  have h := resolve_backfill
    [⟨"tesseract", none, some 100, some "2024-01-01", 0, 0⟩,
     ⟨"vision", some "ACME", none, none, 0, 2⟩] (by decide)
  refine ⟨?_, ?_, ?_⟩
  · rw [h.1]; decide
  · rw [h.2.1]; decide
  · rw [h.2.2]; decide

/-! ## C10: the candidate list is never empty and the tag is never "unknown" -/

theorem build_candidates_sources (t_store : Option String) (t_total : Option ℚ)
    (t_date : Option String) (tess_conf : Option ℚ) (ocrs_ok : Bool) (s_store : Option String)
    (s_total : Option ℚ) (s_date : Option String) (vision_ok : Bool) (v_store : Option String)
    (v_total : Option ℚ) (v_date : Option String) (v_conf : Option ℚ)
    (paddle : Option PaddleRec) (c : Candidate)
    (hc : c ∈ build_candidates t_store t_total t_date tess_conf ocrs_ok s_store s_total s_date
      vision_ok v_store v_total v_date v_conf paddle) :
    c.source = "tesseract" ∨ c.source = "ocr_space" ∨ c.source = "vision" ∨
      c.source = "paddle_vl" := by
  simp only [build_candidates, List.mem_append, List.mem_singleton] at hc
  rcases hc with ((hc | hc) | hc) | hc
  · left; rw [hc]
  · right; left
    rcases Bool.eq_false_or_eq_true ocrs_ok with h | h <;> simp [h] at hc
    rw [hc]
  · right; right; left
    rcases Bool.eq_false_or_eq_true vision_ok with h | h <;> simp [h] at hc
    rw [hc]
  · right; right; right
    cases paddle with
    | none => simp at hc
    | some p => simp at hc; rw [hc]

/-- C10: a tesseract candidate is always constructed first, so the candidate
list is never empty, the "unknown" branch is unreachable, and the resulting
source tag is either "consensus" or the source name of a constructed
candidate (tesseract, ocr_space, vision or paddle_vl), never "unknown". -/
theorem resolve_source_tag_total (t_store : Option String) (t_total : Option ℚ)
    (t_date : Option String) (tess_conf : Option ℚ) (ocrs_ok : Bool) (s_store : Option String)
    (s_total : Option ℚ) (s_date : Option String) (vision_ok : Bool) (v_store : Option String)
    (v_total : Option ℚ) (v_date : Option String) (v_conf : Option ℚ)
    (paddle : Option PaddleRec) :
    build_candidates t_store t_total t_date tess_conf ocrs_ok s_store s_total s_date
        vision_ok v_store v_total v_date v_conf paddle ≠ [] ∧
    (build_candidates t_store t_total t_date tess_conf ocrs_ok s_store s_total s_date
        vision_ok v_store v_total v_date v_conf paddle).head? =
      some ⟨"tesseract", t_store, t_total, t_date, tess_conf.getD 0, 0⟩ ∧
    ((resolve_from_candidates (build_candidates t_store t_total t_date tess_conf ocrs_ok
        s_store s_total s_date vision_ok v_store v_total v_date v_conf paddle)).source_tag
        = "consensus" ∨
      (resolve_from_candidates (build_candidates t_store t_total t_date tess_conf ocrs_ok
        s_store s_total s_date vision_ok v_store v_total v_date v_conf paddle)).source_tag
        ∈ (build_candidates t_store t_total t_date tess_conf ocrs_ok s_store s_total s_date
            vision_ok v_store v_total v_date v_conf paddle).map Candidate.source) ∧
    (resolve_from_candidates (build_candidates t_store t_total t_date tess_conf ocrs_ok
        s_store s_total s_date vision_ok v_store v_total v_date v_conf paddle)).source_tag
      ≠ "unknown" := by
  set L := build_candidates t_store t_total t_date tess_conf ocrs_ok s_store s_total s_date
    vision_ok v_store v_total v_date v_conf paddle with hL
  have hne : L ≠ [] := by rw [hL]; simp [build_candidates]
  have hhead : L.head? = some ⟨"tesseract", t_store, t_total, t_date, tess_conf.getD 0, 0⟩ := by
    rw [hL]; rfl
  have hblt : firstMaxIdx score L < L.length := (firstMaxIdx_spec score L hne).1
  have hbest_mem : L.getD (firstMaxIdx score L) default ∈ L := getD_mem L _ default hblt
  have htag : (resolve_from_candidates L).source_tag = "consensus" ∨
      (resolve_from_candidates L).source_tag
        = (L.getD (firstMaxIdx score L) default).source := by
    rw [resolve_tag_eq L hne]
    split
    · exact Or.inl rfl
    · exact Or.inr rfl
  refine ⟨hne, hhead, ?_, ?_⟩
  · rcases htag with h | h
    · exact Or.inl h
    · right
      rw [h]
      exact List.mem_map_of_mem Candidate.source hbest_mem
  · rcases htag with h | h
    · rw [h]; decide
    · rw [h]
      have := build_candidates_sources t_store t_total t_date tess_conf ocrs_ok s_store
        s_total s_date vision_ok v_store v_total v_date v_conf paddle _ (hL ▸ hbest_mem)
      rcases this with h' | h' | h' | h' <;> rw [h'] <;> decide

/-! ## Store normalization and brand matching (`app/ph_rules.py`) -/

theorem lenDropWhileLe {α} (p : α → Bool) (l : List α) :
    (l.dropWhile p).length ≤ l.length := by
  induction l with
  | nil => simp
  | cons x xs ih =>
    rw [List.dropWhile_cons]
    split
    · exact le_trans ih (by simp)
    · simp

/-- Python `str.replace`, fuelled for structural recursion: the fuel is the
input length, and every step consumes at least one character, so the
fuel-exhausted fallback is never reached. -/
@[irreducible] def replaceLF (needle repl : List Char) : ℕ → List Char → List Char
  | _, [] => []
  | 0, l => l
  | fuel + 1, c :: rest =>
      if needle ≠ [] ∧ needle.isPrefixOf (c :: rest) then
        repl ++ replaceLF needle repl fuel (rest.drop (needle.length - 1))
      else
        c :: replaceLF needle repl fuel rest

/-- Python `str.replace`: replace all non-overlapping occurrences of `needle`
left to right (replacements are not rescanned).  Never called with an empty
needle in this development. -/
def replaceL (needle repl : List Char) (l : List Char) : List Char :=
  replaceLF needle repl l.length l

@[irreducible] def collapseWs1F : ℕ → List Char → List Char
  | _, [] => []
  | 0, l => l
  | fuel + 1, c :: rest =>
      if wsChar c then ' ' :: collapseWs1F fuel (rest.dropWhile wsChar)
      else c :: collapseWs1F fuel rest

/-- `re.sub(r"\s+", " ", ·)`: every maximal whitespace run becomes one space. -/
def collapseWs1 (l : List Char) : List Char := collapseWs1F l.length l

@[irreducible] def collapseWs2F : ℕ → List Char → List Char
  | _, [] => []
  | 0, l => l
  | _ + 1, [c] => [c]
  | fuel + 1, c :: d :: rest =>
      if wsChar c && wsChar d then ' ' :: collapseWs2F fuel (rest.dropWhile wsChar)
      else c :: collapseWs2F fuel (d :: rest)

/-- `re.sub(r"\s{2,}", " ", ·)`: whitespace runs of length ≥ 2 become one
space; single whitespace characters are left as they are. -/
def collapseWs2 (l : List Char) : List Char := collapseWs2F l.length l

/-- Python word characters (`\w` over the ASCII fragment). -/
def wordChar (c : Char) : Bool := c.isAlphanum || c = '_'

/-- A `\b` word boundary holds before the current position given the previous
character (`none` at the start of the string). -/
def boundaryBefore (prev : Option Char) : Bool :=
  match prev with
  | none => true
  | some p => !wordChar p

@[irreducible] def sub7elevenF : Option Char → ℕ → List Char → List Char
  | _, _, [] => []
  | _, 0, l => l
  | prev, fuel + 1, c :: rest =>
      if c = '7' ∧ boundaryBefore prev = true ∧
          ("ELEVEN".data.isPrefixOf (rest.dropWhile wsChar)) ∧
          (match ((rest.dropWhile wsChar).drop 6).head? with
           | none => true
           | some d => !wordChar d) = true then
        "7-ELEVEN".data ++ sub7elevenF (some 'N') fuel ((rest.dropWhile wsChar).drop 6)
      else
        c :: sub7elevenF (some c) fuel rest

/-- `re.sub(r"\b7\s*ELEVEN\b", "7-ELEVEN", ·)` from `_sanitize_ocr`. -/
def sub7elevenAux (prev : Option Char) (l : List Char) : List Char :=
  sub7elevenF prev l.length l

/-- The glyph/misspelling replacement chain of `_sanitize_ocr` (lines 68-76),
before whitespace collapsing. -/
@[irreducible] def sanitize_core (s : String) : List Char :=
  let u := upperL s.data
  let u := replaceL "¢".data "7".data u
  let u := replaceL "€".data "C".data u
  let u := replaceL "—".data "-".data u
  let u := replaceL "–".data "-".data u
  let u := replaceL "_".data "-".data u
  let u := replaceL "~".data "-".data u
  let u := replaceL "|".data "I".data u
  let u := replaceL "0/".data "Q".data u
  let u := replaceL "ELEWEM".data "ELEVEN".data u
  let u := replaceL "ELEWEOD".data "ELEVEN".data u
  let u := replaceL "ELEWEN".data "ELEVEN".data u
  let u := replaceL "ELEVENN".data "ELEVEN".data u
  sub7elevenAux none u

/-- `_sanitize_ocr` (lines 62-80): uppercase, fix glyph confusions, repair
ELEVEN misspellings, restore the 7-ELEVEN hyphen, collapse whitespace, strip. -/
def sanitize_ocr (s : String) : String :=
  if s = "" then s
  else String.mk (trimL (collapseWs1 (sanitize_core s)))

/-- The word alternatives of `BREAK_PAT` (address/metadata keywords).  The
optional trailing dots of the pattern never affect whether a match exists at a
position nor its start, so only the bare words are listed. -/
def BREAK_WORDS : List (List Char) :=
  ["branch".data, "tin".data, "vat".data, "address".data, "add".data, "tel".data,
   "contact".data, "phone".data, "no".data, "receipt".data, "invoice".data,
   "official".data, "cashier".data, "terminal".data, "store no".data]

/-- One `BREAK_PAT` alternative matches at the head of `l` (with its trailing
word boundary). -/
def breakWordAt (w : List Char) (l : List Char) : Bool :=
  w.isPrefixOf l &&
    (match (l.drop w.length).head? with
     | none => true
     | some d => !wordChar d)

def breakSearchAux (prev : Option Char) (i : ℕ) : List Char → Option ℕ
  | [] => none
  | c :: rest =>
      if boundaryBefore prev && BREAK_WORDS.any (fun w => breakWordAt w (c :: rest)) then
        some i
      else breakSearchAux (some c) (i + 1) rest

/-- `BREAK_PAT.search(s)`: index of the leftmost case-insensitive
word-boundary match of any break keyword. -/
def break_search (l : List Char) : Option ℕ :=
  breakSearchAux none 0 (lowerL l)

/-- Match length of the legal-suffix pattern
`\b(CORP(?:ORATION)?|INC\.?|CO\.?|COMPANY|LTD\.?|CORPORATION)\b` at the head
of `l` (the leading boundary is checked by the caller).  Alternatives are
tried in the pattern's order; an optional dot is consumed only when the
following character is a word character (otherwise `\b` fails after the dot
and the regex backtracks to the dot-less form). -/
def suffixMatchLen (l : List Char) : Option ℕ :=
  let wordAfter : ℕ → Bool := fun n =>
    match (l.drop n).head? with
    | none => false
    | some d => wordChar d
  let bndAfter : ℕ → Bool := fun n =>
    match (l.drop n).head? with
    | none => true
    | some d => !wordChar d
  if "CORPORATION".data.isPrefixOf l && bndAfter 11 then some 11
  else if "CORP".data.isPrefixOf l && bndAfter 4 then some 4
  else if "INC.".data.isPrefixOf l && wordAfter 4 then some 4
  else if "INC".data.isPrefixOf l && bndAfter 3 then some 3
  else if "CO.".data.isPrefixOf l && wordAfter 3 then some 3
  else if "CO".data.isPrefixOf l && bndAfter 2 then some 2
  else if "COMPANY".data.isPrefixOf l && bndAfter 7 then some 7
  else if "LTD.".data.isPrefixOf l && wordAfter 4 then some 4
  else if "LTD".data.isPrefixOf l && bndAfter 3 then some 3
  else none

@[irreducible] def suffixSubF : Option Char → ℕ → List Char → List Char
  | _, _, [] => []
  | _, 0, l => l
  | prev, fuel + 1, c :: rest =>
      match (if boundaryBefore prev then suffixMatchLen (c :: rest) else none) with
      | some n =>
          suffixSubF (some ((c :: rest).getD (n - 1) c)) fuel (rest.drop (n - 1))
      | none => c :: suffixSubF (some c) fuel rest

/-- Global removal (`re.sub(..., "", s)`) of the legal-suffix pattern,
scanning the original string left to right. -/
def suffixSubAux (prev : Option Char) (l : List Char) : List Char :=
  suffixSubF prev l.length l

/-- `normalize_store_name` (lines 118-132). -/
def normalize_store_name (store : Option String) : Option String :=
  match store with
  | none => none
  | some st =>
      if st = "" then none
      else
        let s := (sanitize_ocr st).data
        let s := if s.contains '\n' then s.takeWhile (fun c => c ≠ '\n') else s
        let s := match break_search s with
                 | some i => s.take i
                 | none => s
        let s := suffixSubAux none s
        some (String.mk (trimL (collapseWs2 s)))

/-! ### Fuzzy matching: Levenshtein distance and difflib ratios -/

/-- One row update of the unit-cost edit-distance table
(`Levenshtein.distance`). -/
@[irreducible] def levStepGo (ca : Char) : ℕ → ℕ → List Char → List ℕ → List ℕ
  | diag, left, cb :: bs, up :: rest =>
      let v := Nat.min (up + 1) (Nat.min (left + 1) (diag + (if ca = cb then 0 else 1)))
      v :: levStepGo ca up v bs rest
  | _, _, _, _ => []

def levStep (b : List Char) (row : List ℕ) (ca : Char) : List ℕ :=
  let first := row.headD 0 + 1
  first :: levStepGo ca (row.headD 0) first b row.tail

/-- `Levenshtein.distance`: unit-cost edit distance. -/
def levenshtein (a b : List Char) : ℕ :=
  (a.foldl (levStep b) (List.range (b.length + 1))).getLastD 0

/-- Positions of `c` in `b`, ascending (difflib's `b2j`; no junk, since the
compared strings are far shorter than difflib's autojunk threshold of 200). -/
@[irreducible] def posList (b : List Char) (c : Char) : List ℕ :=
  b.enum.filterMap (fun p => if p.2 = c then some p.1 else none)

def j2look (m : List (ℕ × ℕ)) (j : ℕ) : ℕ :=
  match m.find? (fun p => p.1 = j) with
  | some p => p.2
  | none => 0

/-- Backward extension loop of `find_longest_match` (junk-free form); the
fuel (initially `besti`, which strictly decreases) makes the recursion
structural. -/
@[irreducible] def extBackF (a b : List Char) (alo blo : ℕ) : ℕ → ℕ → ℕ → ℕ → ℕ × ℕ × ℕ
  | 0, besti, bestj, bestsize => (besti, bestj, bestsize)
  | fuel + 1, besti, bestj, bestsize =>
      if alo < besti ∧ blo < bestj ∧ a.getD (besti - 1) ' ' = b.getD (bestj - 1) ' ' then
        extBackF a b alo blo fuel (besti - 1) (bestj - 1) (bestsize + 1)
      else (besti, bestj, bestsize)

/-- Forward extension loop of `find_longest_match` (junk-free form); the fuel
(initially `ahi`) bounds the number of forward steps. -/
@[irreducible] def extFwdF (a b : List Char) (ahi bhi besti bestj : ℕ) : ℕ → ℕ → ℕ
  | 0, bestsize => bestsize
  | fuel + 1, bestsize =>
      if besti + bestsize < ahi ∧ bestj + bestsize < bhi ∧
          a.getD (besti + bestsize) ' ' = b.getD (bestj + bestsize) ' ' then
        extFwdF a b ahi bhi besti bestj fuel (bestsize + 1)
      else bestsize

/-- difflib `SequenceMatcher.find_longest_match` on `a[alo:ahi]`, `b[blo:bhi]`
with empty junk sets: the `j2len` dynamic program followed by the two
(here vacuous in difflib, but kept) extension loops. -/
@[irreducible] def find_longest_match (a b : List Char) (alo ahi blo bhi : ℕ) : ℕ × ℕ × ℕ :=
  let idxs := (List.range (ahi - alo)).map (· + alo)
  let st := idxs.foldl
    (fun (st : List (ℕ × ℕ) × ℕ × ℕ × ℕ) i =>
      let j2len := st.1
      let js := (posList b (a.getD i ' ')).filter (fun j => blo ≤ j && j < bhi)
      js.foldl
        (fun (st2 : List (ℕ × ℕ) × ℕ × ℕ × ℕ) j =>
          let k := (if j = 0 then 0 else j2look j2len (j - 1)) + 1
          let nm := (j, k) :: st2.1
          if k > st2.2.2.2 then (nm, i + 1 - k, j + 1 - k, k)
          else (nm, st2.2.1, st2.2.2.1, st2.2.2.2))
        ([], st.2.1, st.2.2.1, st.2.2.2))
    ([], alo, blo, 0)
  let r := extBackF a b alo blo st.2.1 st.2.1 st.2.2.1 st.2.2.2
  (r.1, r.2.1, extFwdF a b ahi bhi r.1 r.2.1 ahi r.2.2)

/-- Total size of all matching blocks (the recursion of
`get_matching_blocks`; the queue-based assembly only merges adjacent blocks,
which does not change the sum).  `fuel` bounds the recursion depth, which is
at most the size of the `a`-interval since every found block is non-empty. -/
@[irreducible] def matchSumF (a b : List Char) : ℕ → ℕ → ℕ → ℕ → ℕ → ℕ
  | 0, _, _, _, _ => 0
  | fuel + 1, alo, ahi, blo, bhi =>
      let r := find_longest_match a b alo ahi blo bhi
      if r.2.2 = 0 then 0
      else matchSumF a b fuel alo r.1 blo r.2.1 + r.2.2 +
        matchSumF a b fuel (r.1 + r.2.2) ahi (r.2.1 + r.2.2) bhi

/-- difflib `SequenceMatcher(None, a, b).ratio()` as an exact rational. -/
def smRatioQ (a b : List Char) : ℚ :=
  let total := a.length + b.length
  if total = 0 then 1
  else 2 * (matchSumF a b (a.length + 1) 0 a.length 0 b.length : ℚ) / (total : ℚ)

/-- `_sequence_ratio` (lines 138-141). -/
def sequence_sim (a b : List Char) : ℚ :=
  if a = [] ∨ b = [] then 0 else smRatioQ a b

@[irreducible] def windowSimAux (a b : List Char) (span : ℕ) : ℕ → ℕ → ℚ → ℚ
  | 0, _, best => best
  | fuel + 1, i, best =>
      let r := smRatioQ a ((b.drop i).take span)
      let best' := qmax best r
      if best' ≥ 995/1000 then best'
      else windowSimAux a b span fuel (i + 1) best'

/-- `_partial_ratio` (lines 144-156): best ratio of the shorter string
against every window of its length in the longer one, with the 0.995 early
exit. -/
def window_sim (a b : List Char) : ℚ :=
  if a = [] ∨ b = [] then 0
  else
    let p := if b.length < a.length then (b, a) else (a, b)
    windowSimAux p.1 p.2 p.1.length (p.2.length - p.1.length + 1) 0 0

/-- `_apply_char_map` (lines 101-107). -/
def apply_char_map (u : List Char) : List Char :=
  let u := replaceL "2I".data "PI".data u
  let u := replaceL "2L".data "PL".data u
  let u := replaceL "0".data "O".data u
  let u := replaceL "1".data "I".data u
  let u := replaceL "2".data "Z".data u
  let u := replaceL "3".data "B".data u
  let u := replaceL "4".data "A".data u
  let u := replaceL "5".data "S".data u
  let u := replaceL "6".data "G".data u
  let u := replaceL "7".data "T".data u
  let u := replaceL "8".data "B".data u
  let u := replaceL "9".data "G".data u
  let u := replaceL "@".data "A".data u
  let u := replaceL "$".data "S".data u
  let u := replaceL "€".data "E".data u
  let u := replaceL "£".data "L".data u
  let u := replaceL "¢".data "C".data u
  u

/-- `_normalize_for_match` (lines 110-116): sanitize, homoglyph map, keep only
`A-Z0-9`, drop leading non-letters. -/
def normalize_for_match (s : String) : List Char :=
  let s1 := (sanitize_ocr s).data
  let s2 := apply_char_map s1
  let s3 := s2.filter (fun c => ('A' ≤ c ∧ c ≤ 'Z') ∨ c.isDigit)
  s3.dropWhile (fun c => ¬('A' ≤ c ∧ c ≤ 'Z'))

/-- `_similarity_score` (lines 159-183). -/
def similarity_score (norm cand : String) : ℚ :=
  let nc := normalize_for_match norm
  let cc := normalize_for_match cand
  if nc = [] ∨ cc = [] then 0
  else
    let dn := Nat.max nc.length cc.length
    let dn := if dn = 0 then 1 else dn
    let lev_score : ℚ := 1 - (levenshtein nc cc : ℚ) / (dn : ℚ)
    let seq := sequence_sim nc cc
    let win := window_sim nc cc
    let bonus : ℚ := if cc.isPrefixOf nc ∨ nc.isPrefixOf cc then 1/20 else 0
    qmin 1 (qmax lev_score (qmax seq win) + bonus)

/-! ### The brand dictionary.  Python iterates these as sets; the literal
source order is used here (every claim-relevant lookup is order-independent:
C5's match is unique and C4 requires no match at all). -/

/-- An apostrophe character, used inside brand names. -/
def apoC : Char := Char.ofNat 39

def mcdonaldsFull : String := "MCDONALD" ++ String.mk [apoC] ++ "S"

def shakeysFull : String := "SHAKEY" ++ String.mk [apoC] ++ "S"

def FOOD_BRANDS : List String :=
  ["JOLLIBEE", "MCDONALD", mcdonaldsFull, "KFC", "CHOWKING", "GREENWICH",
   "MANG INASAL", shakeysFull, "BONCHON", "STARBUCKS", "GONG CHA", "CHATIME",
   "7-ELEVEN", "MINISTOP", "FAMILYMART"]

def GROCERY_BRANDS : List String :=
  ["SM SUPERMARKET", "SM HYPERMARKET", "PUREGOLD", "ROBINSONS SUPERMARKET",
   "WALTERMART", "LANDERS", "S&R", "GMALL", "GRANDMALL"]

def UTILITY_BRANDS : List String :=
  ["MERALCO", "PLDT", "GLOBE", "SMART", "CONVERGE", "MAYNILAD", "MANILA WATER",
   "SKY", "DITO"]

def TRANSPORT_BRANDS : List String :=
  ["PETRON", "SHELL", "CALTEX", "SEAOIL", "EASYTRIP", "AUTOSWEEP", "GRAB",
   "ANGKAS", "NLEX", "SLEX"]

def HEALTH_BRANDS : List String :=
  ["MERCURY DRUG", "WATSONS", "SOUTHSTAR", "GENERIKA", "ROSE PHARMACY",
   "THE GENERICS PHARMACY"]

/-- `ALL_SETS` (lines 46-52): category name with its brand set, in source
order (keyword sets are omitted: they feed only `rule_category`). -/
def ALL_SETS : List (String × List String) :=
  [("Utilities", UTILITY_BRANDS), ("Transportation", TRANSPORT_BRANDS),
   ("Health & Wellness", HEALTH_BRANDS), ("Groceries", GROCERY_BRANDS),
   ("Food", FOOD_BRANDS)]

/-- `ALIAS_MAP` (lines 29-37) in insertion order. -/
def ALIAS_MAP : List (String × String) :=
  [("GOLDEN ARCHES", mcdonaldsFull), ("GOLDEN ARCHES FOOD CORPORATION", mcdonaldsFull),
   ("GIANT ARCHES", mcdonaldsFull), ("GIANT ARCHES FOOD CORPORATION", mcdonaldsFull),
   ("WWW.UNIQLO.COM", "UNIQLO"), ("UNIQLO.COM", "UNIQLO"),
   ("BDA ENTERPRISES", "7-ELEVEN")]

/-- `_all_brands_cached` (lines 186-191): brands concatenated in `ALL_SETS`
order. -/
def all_brands : List String := ALL_SETS.flatMap (fun p => p.2)

/-- One step of the `_best_match` loop: keep the candidate only when it
strictly exceeds the running best score. -/
def bmStep (norm : String) (acc : Option String × ℚ) (c : String) : Option String × ℚ :=
  let sc := similarity_score norm c
  if sc > acc.2 then (some c, sc) else acc

/-- `_best_match` (lines 194-207): first brand strictly exceeding the running
best similarity. -/
def best_match (norm : String) (cands : List String) : Option String × ℚ :=
  if norm = "" then (none, 0)
  else cands.foldl (bmStep norm) (none, 0)

/-- The alias pass of `correct_store_name` (lines 222-226): the first alias
that is a substring of the uppercased normalized name and whose canonical
brand belongs to some category; aliases with uncategorized canonicals
(UNIQLO) fall through. -/
def aliasHit (norm : String) : Option (String × String) :=
  ALIAS_MAP.findSome? (fun p =>
    if containsL p.1.data (upperL norm.data) then
      ALL_SETS.findSome? (fun q => if p.2 ∈ q.2 then some (p.2, q.1) else none)
    else none)

/-- The exact/contains pass of `correct_store_name` (lines 229-232). -/
def containHit (norm : String) : Option (String × String) :=
  ALL_SETS.findSome? (fun q =>
    q.2.findSome? (fun b =>
      if containsL b.data norm.data ∨ containsL norm.data b.data then some (b, q.1)
      else none))

/-- `correct_store_name` (lines 209-247). -/
def correct_store_name (store : Option String) :
    Option String × Option String × Option ℚ :=
  match store with
  | none => (none, none, none)
  | some st =>
      if st = "" then (none, none, none)
      else
        match normalize_store_name (some st) with
        | none => (none, none, none)
        | some norm =>
            if norm = "" then (none, none, none)
            else
              match aliasHit norm with
              | some pc => (some pc.1, some pc.2, some 1)
              | none =>
                  match containHit norm with
                  | some pc => (some pc.1, some pc.2, some 1)
                  | none =>
                      let bm := best_match norm all_brands
                      if bm.2 ≥ 84/100 ∧ truthyS bm.1 then
                        match (match bm.1 with
                               | some bb => ALL_SETS.findSome?
                                   (fun q => if bb ∈ q.2 then some q.1 else none)
                               | none => none) with
                        | some cat => (bm.1, some cat, some bm.2)
                        | none => (none, none, if truthyS bm.1 then some bm.2 else none)
                      else (none, none, if truthyS bm.1 then some bm.2 else none)

/-! ## C5: the 7-ELEVEN OCR example -/

unseal replaceLF collapseWs1F collapseWs2F sub7elevenF suffixSubF
  sanitize_core in
/-- C5: `"¢-ELEWEM BRANCH 123"` normalizes to `7-ELEVEN` and is matched
(exact containment, confidence 1.0) to canonical brand `7-ELEVEN`, category
`Food`. -/
theorem seven_eleven_correction :
    correct_store_name (some "¢-ELEWEM BRANCH 123")
      = (some "7-ELEVEN", some "Food", some 1) := by
  decide

/-! ## C6: idempotence of store normalization -/

unseal replaceLF collapseWs1F collapseWs2F sub7elevenF suffixSubF
  sanitize_core in
/-- C6 counterexample: the sanitizer's `ELEVENN → ELEVEN` replacement is not
idempotent, so `normalize_store_name` is not: `"ELEVENNN"` normalizes to
`"ELEVENN"`, which normalizes further to `"ELEVEN"`. -/
theorem normalize_store_name_idem_cex :
    normalize_store_name (some "ELEVENNN") = some "ELEVENN" ∧
    normalize_store_name (normalize_store_name (some "ELEVENNN")) = some "ELEVEN" ∧
    normalize_store_name (normalize_store_name (some "ELEVENNN"))
      ≠ normalize_store_name (some "ELEVENNN") := by
  decide

/-- C6 (amended): normalization is idempotent at every input whose normalized
output is non-empty, contains no newline, and is left unchanged by each
normalization stage — sanitization, the break-keyword cut, legal-suffix
removal, and whitespace collapsing/stripping.  (The counterexample violates
the sanitization condition.) -/
theorem normalize_store_name_idem (x : Option String) (s : String)
    (h1 : normalize_store_name x = some s)
    (h2 : s ≠ "")
    (h3 : sanitize_ocr s = s)
    (hnl : s.data.contains '\n' = false)
    (h4 : break_search s.data = none)
    (h5 : suffixSubAux none s.data = s.data)
    (h6 : trimL (collapseWs2 s.data) = s.data) :
    normalize_store_name (normalize_store_name x) = normalize_store_name x := by
  rw [h1]
  show normalize_store_name (some s) = some s
  simp only [normalize_store_name, if_neg h2, h3, hnl, Bool.false_eq_true, if_false, h4, h5, h6]

unseal replaceLF collapseWs1F collapseWs2F sub7elevenF suffixSubF
  sanitize_core in
/-- C6 witness: a plain brand name is a fixed point of every stage, so
normalizing it twice equals normalizing it once. -/
theorem normalize_store_name_idem_witness :
    normalize_store_name (normalize_store_name (some "JOLLIBEE"))
      = normalize_store_name (some "JOLLIBEE") :=
  normalize_store_name_idem (some "JOLLIBEE") "JOLLIBEE"
    (by decide) (by decide) (by decide)
    (by decide) (by decide) (by decide)
    (by decide)

/-! ## C4: below-threshold fuzzy match -/

theorem bmFold_inv (norm : String) (cands : List String)
    (hc : ∀ c ∈ cands, c ≠ "") (acc : Option String × ℚ)
    (hacc : (acc.1 = none ∧ acc.2 = 0) ∨ (truthyS acc.1 = true ∧ 0 < acc.2)) :
    ((cands.foldl (bmStep norm) acc).1 = none ∧ (cands.foldl (bmStep norm) acc).2 = 0) ∨
    (truthyS (cands.foldl (bmStep norm) acc).1 = true ∧
      0 < (cands.foldl (bmStep norm) acc).2) := by
  induction cands generalizing acc with
  | nil => exact hacc
  | cons c cs ih =>
    simp only [List.foldl_cons]
    apply ih (fun y hy => hc y (List.mem_cons_of_mem c hy))
    unfold bmStep
    by_cases hsc : similarity_score norm c > acc.2
    · rw [if_pos hsc]
      right
      refine ⟨by simp [truthyS, hc c (List.mem_cons_self c cs)], ?_⟩
      rcases hacc with ⟨_, h0⟩ | ⟨_, h0⟩
      · rw [h0] at hsc; exact hsc
      · exact lt_trans h0 hsc
    · rw [if_neg hsc]; exact hacc

theorem best_match_inv (norm : String) (cands : List String)
    (hc : ∀ c ∈ cands, c ≠ "") :
    ((best_match norm cands).1 = none ∧ (best_match norm cands).2 = 0) ∨
    (truthyS (best_match norm cands).1 = true ∧ 0 < (best_match norm cands).2) := by
  unfold best_match
  by_cases hn : norm = ""
  · rw [if_pos hn]; left; exact ⟨rfl, rfl⟩
  · rw [if_neg hn]
    exact bmFold_inv norm cands hc (none, 0) (Or.inl ⟨rfl, rfl⟩)

unseal replaceLF collapseWs1F collapseWs2F sub7elevenF suffixSubF
  extBackF extFwdF matchSumF windowSimAux levStepGo sanitize_core
  find_longest_match posList Rat.add Rat.sub Rat.mul Rat.inv in
/-- C4 counterexample: for `"!!!"` the normalized name survives but strips to
nothing alphanumeric, every brand scores 0 (< 0.84) and there is no alias or
containment hit; the claim says the best score is still returned, yet the
code returns score `None` (because no brand ever exceeded the initial 0). -/
theorem correct_store_name_cex :
    correct_store_name (some "!!!") = (none, none, none) ∧
    normalize_store_name (some "!!!") = some "!!!" ∧
    aliasHit "!!!" = none ∧
    containHit "!!!" = none ∧
    (best_match "!!!" all_brands).2 = 0 ∧
    ((0 : ℚ) < 84/100) := by
  decide

unseal replaceLF collapseWs1F collapseWs2F sub7elevenF suffixSubF
  extBackF extFwdF matchSumF windowSimAux levStepGo sanitize_core
  find_longest_match posList Rat.add Rat.sub Rat.mul Rat.inv in
/-- C4 (amended): whenever the normalized store survives non-empty, hits no
alias and no containment match, and its best fuzzy score is below 0.84, the
matcher returns no correction (null brand, null category); the best score is
returned when it is positive, while a zero best score is reported as null. -/
theorem correct_store_name_below_threshold (st norm : String)
    (h1 : st ≠ "")
    (h2 : normalize_store_name (some st) = some norm)
    (h3 : norm ≠ "")
    (h4 : aliasHit norm = none)
    (h5 : containHit norm = none)
    (h6 : (best_match norm all_brands).2 < 84/100) :
    (0 < (best_match norm all_brands).2 →
      correct_store_name (some st) = (none, none, some (best_match norm all_brands).2)) ∧
    ((best_match norm all_brands).2 = 0 →
      correct_store_name (some st) = (none, none, none)) := by
  have hbrands : ∀ c ∈ all_brands, c ≠ "" := by decide
  have hinv := best_match_inv norm all_brands hbrands
  have hcond : ¬((best_match norm all_brands).2 ≥ 84/100 ∧
      truthyS (best_match norm all_brands).1 = true) := by
    rintro ⟨hge, _⟩
    exact absurd hge (not_le.mpr h6)
  have hcsn : correct_store_name (some st) =
      (none, none,
       if truthyS (best_match norm all_brands).1 = true
       then some (best_match norm all_brands).2 else none) := by
    simp only [correct_store_name, if_neg h1, h2, if_neg h3, h4, h5]
    rw [if_neg hcond]
  constructor
  · intro hpos
    rcases hinv with ⟨_, h0⟩ | ⟨ht, _⟩
    · rw [h0] at hpos; exact absurd hpos (lt_irrefl 0)
    · rw [hcsn, if_pos ht]
  · intro h0
    rcases hinv with ⟨hn, _⟩ | ⟨_, hp⟩
    · rw [hcsn, hn]
      simp [truthyS]
    · rw [h0] at hp; exact absurd hp (lt_irrefl 0)

unseal replaceLF collapseWs1F collapseWs2F sub7elevenF suffixSubF
  extBackF extFwdF matchSumF windowSimAux levStepGo sanitize_core
  find_longest_match posList Rat.add Rat.sub Rat.mul Rat.inv in
/-- C4 witness: `"KFX"` scores 2/3 (against KFC), positive and below the 0.84
threshold, with no alias or containment hit, so the matcher returns
`(None, None, 2/3)`. -/
theorem correct_store_name_below_threshold_witness :
    correct_store_name (some "KFX") = (none, none, some (2/3 : ℚ)) := by
  have hbm : best_match "KFX" all_brands = (some "KFC", 2/3) := by
    decide
  have h := correct_store_name_below_threshold "KFX" "KFX"
    (by decide)
    (by decide)
    (by decide)
    (by decide)
    (by decide)
    (by rw [hbm]; decide)
  have hpos : 0 < (best_match "KFX" all_brands).2 := by
    rw [hbm]; decide
  have hc := h.1 hpos
  rw [hbm] at hc
  exact hc

/-! ## Amount extraction (`app/parser.py`)

The monetary pattern `AMT` is
`(?:₱|PHP|Php|php)?\s*([0-9]{1,3}(?:,[0-9]{3})*(?:\.[0-9]{2})|[0-9]+(?:\.[0-9]{2}))`.
Both alternatives of the capture group require a trailing `.dd`, so the
backtracking search below is a direct transcription of the pattern's
leftmost-first semantics. -/

/-- Longest chain of leading `,ddd` groups. -/
def commaChainMax : List Char → ℕ
  | ',' :: d1 :: d2 :: d3 :: rest =>
      if d1.isDigit && d2.isDigit && d3.isDigit then commaChainMax rest + 1 else 0
  | _ => 0

/-- The list starts with `.dd`. -/
def dotDD : List Char → Bool
  | '.' :: d1 :: d2 :: _ => d1.isDigit && d2.isDigit
  | _ => false

/-- Length of the leftmost-first match of the `AMT` capture group at the head
of the list: first alternative `[0-9]{1,3}(,[0-9]{3})*(\.[0-9]{2})` with the
digit count greedy from 3 down and the comma groups greedy from the maximal
chain down, then `[0-9]+(\.[0-9]{2})` (only the maximal digit run can be
followed by the dot). -/
def amtGroupLen (l : List Char) : Option ℕ :=
  let d := (l.takeWhile Char.isDigit).length
  let tryN1 : ℕ → Option ℕ := fun n1 =>
    if 1 ≤ n1 ∧ n1 ≤ d then
      let rest := l.drop n1
      let kmax := commaChainMax rest
      (List.range (kmax + 1)).findSome? (fun t =>
        let k := kmax - t
        if dotDD (rest.drop (4 * k)) then some (n1 + 4 * k + 3) else none)
    else none
  match tryN1 3 with
  | some n => some n
  | none =>
      match tryN1 2 with
      | some n => some n
      | none =>
          match tryN1 1 with
          | some n => some n
          | none => if 1 ≤ d ∧ dotDD (l.drop d) then some (d + 3) else none

/-- Match of the full `AMT` pattern at the head of the list: optional currency
prefix, greedy whitespace, then the capture group.  Returns the consumed
length and the captured group.  (If a currency prefix matches but no group
follows, no alternative can rescue the match, since the group must start with
a digit.) -/
def amtMatchAt (l : List Char) : Option (ℕ × List Char) :=
  let plen :=
    if l.head? = some '₱' then 1
    else if "PHP".data.isPrefixOf l ∨ "Php".data.isPrefixOf l ∨ "php".data.isPrefixOf l then 3
    else 0
  let l1 := l.drop plen
  let w := (l1.takeWhile wsChar).length
  let l2 := l1.drop w
  match amtGroupLen l2 with
  | some g => some (plen + w + g, l2.take g)
  | none => none

@[irreducible] def amtFindAllF : ℕ → List Char → List (List Char)
  | _, [] => []
  | 0, _ => []
  | fuel + 1, c :: rest =>
      match amtMatchAt (c :: rest) with
      | some m => m.2 :: amtFindAllF fuel ((c :: rest).drop (Nat.max m.1 1))
      | none => amtFindAllF fuel rest

/-- `finditer` for `AMT`: the captured groups of all non-overlapping matches,
left to right.  (Every match consumes at least the group's four characters,
so the input-length fuel never runs out.) -/
def amtFindAll (l : List Char) : List (List Char) := amtFindAllF l.length l

/-- `re.search` for `AMT`: group of the leftmost match. -/
def amtSearch (l : List Char) : Option (List Char) := (amtFindAll l).head?

def natOfDigits (l : List Char) : ℕ := l.foldl (fun n c => 10 * n + (c.toNat - 48)) 0

/-- Direct embedding of a natural number into `ℚ`.  (The generic `Nat.cast`
path reduces in unary under kernel evaluation, which is unusable for amounts
in the tens of thousands.) -/
def qOfNat (n : ℕ) : ℚ := ⟨Int.ofNat n, 1, one_ne_zero, Nat.coprime_one_right _⟩

theorem qOfNat_eq (n : ℕ) : qOfNat n = (n : ℚ) := by
  have h1 : ((n : ℚ)).num = (n : ℤ) := Rat.num_natCast n
  have h2 : ((n : ℚ)).den = 1 := Rat.den_natCast n
  unfold qOfNat
  refine Rat.ext ?_ ?_
  · rw [h1]; rfl
  · rw [h2]

/-- `float(m.group(1).replace(",", ""))` for an `AMT` capture group: integer
part plus two cent digits. -/
def parseAmtGroup (g : List Char) : ℚ :=
  let g' := g.filter (fun c => c ≠ ',')
  qOfNat (natOfDigits (g'.takeWhile Char.isDigit))
    + qOfNat (natOfDigits ((g'.dropWhile Char.isDigit).drop 1)) / 100

theorem qOfNat_nonneg (n : ℕ) : 0 ≤ qOfNat n := by
  rw [qOfNat_eq]
  exact Nat.cast_nonneg n

theorem parseAmtGroup_nonneg (g : List Char) : 0 ≤ parseAmtGroup g := by
  unfold parseAmtGroup
  refine add_nonneg (qOfNat_nonneg _) ?_
  refine div_nonneg (qOfNat_nonneg _) ?_
  norm_num

/-- `TOTAL_KEYS` (lines 10-15), literally, including the shadowed `"Total"`
entry which can never match a lowercased line. -/
def TOTAL_KEYS : List String :=
  ["grand total", "total amount due", "amount due", "total due", "total amount",
   "total payable", "amount payable", "balance due", "balance", "total",
   "amount to pay", "net amount due", "net amount", "total sales",
   "amount you owe", "Total"]

def LOW_PRIORITY_KEYS : List String :=
  ["cash", "cash tendered", "tendered", "payment", "paid", "change", "sukli"]

/-- `_is_low_priority_line`. -/
def is_low_priority_line (l : List Char) : Bool :=
  LOW_PRIORITY_KEYS.any (fun k => containsL k.data (lowerL l))

def has_total_key (l : List Char) : Bool :=
  TOTAL_KEYS.any (fun k => containsL k.data (lowerL l))

/-- `_line_currency_score`: the `_currency` regex
`(?:php|₱|php\.|peso|amount:)` (IGNORECASE) hits iff one of its literal
alternatives occurs as a substring. -/
def line_currency_score (l : List Char) : ℚ :=
  if (["php", "₱", "php.", "peso", "amount:"] : List String).any
      (fun k => containsL k.data (lowerL l)) then 1 else 0

/-- `_line_totalish_score` (lines 56-63). -/
def line_totalish_score (l : List Char) : ℚ :=
  (if has_total_key l then 4 else 0)
  + (if (["due", "payable", "amount due", "amount payable", "pay"] : List String).any
        (fun k => containsL k.data (lowerL l)) then 3/2 else 0)

/-- `_score_amount_candidate` (lines 65-88).  Note that the position term
`max(0, 2*(1 - idx/len))` awards up to +2 to the TOP line (idx 0), despite
the source comment saying bottom lines are preferred. -/
def score_amount_candidate (idx : ℕ) (line : List Char) (value : ℚ)
    (lines : List (List Char)) : ℚ :=
  let n := lines.length
  line_totalish_score line + line_currency_score line
  + (if idx + 1 < n then
       (8/10) * line_totalish_score (lines.getD (idx + 1) [])
         + (4/10) * line_currency_score (lines.getD (idx + 1) []) else 0)
  + (if 0 < idx then
       (6/10) * line_totalish_score (lines.getD (idx - 1) [])
         + (3/10) * line_currency_score (lines.getD (idx - 1) []) else 0)
  + (if 0 < n then qmax 0 (2 * (1 - (idx : ℚ) / (n : ℚ))) else 0)
  + qmin value 50000 / 20000
  + (if is_low_priority_line line then -3 else 0)

/-- The `(line index, value)` pairs scanned by `_best_amount`: every `AMT`
match on every non-low-priority line, in scan order. -/
def amount_matches (lines : List (List Char)) : List (ℕ × ℚ) :=
  lines.enum.flatMap (fun p =>
    if is_low_priority_line p.2 then []
    else (amtFindAll p.2).map (fun g => (p.1, parseAmtGroup g)))

/-- One comparison step of `_best_amount` (line 103): strictly higher score,
or score within 1e-6 and strictly larger value. -/
def bestStep (lines : List (List Char)) (acc : Option (ℚ × ℚ)) (m : ℕ × ℚ) :
    Option (ℚ × ℚ) :=
  let s := score_amount_candidate m.1 (lines.getD m.1 []) m.2 lines
  match acc with
  | none => some (s, m.2)
  | some bp =>
      if s > bp.1 ∨ (qabs (s - bp.1) < 1/1000000 ∧ m.2 > bp.2) then some (s, m.2) else acc

/-- `_best_amount` (lines 90-106). -/
def best_amount (lines : List (List Char)) : Option ℚ :=
  ((amount_matches lines).foldl (bestStep lines) none).map (fun p => p.2)

/-- Python line boundaries recognised by `str.splitlines`. -/
def lineBreakC (c : Char) : Bool :=
  c = '\n' || c = '\r' || c = '\x0b' || c = '\x0c' || c = '\x1c' || c = '\x1d' ||
  c = '\x1e' || c = '\x85' || c = Char.ofNat 8232 || c = Char.ofNat 8233

def splitLinesGo (acc : List Char) : List Char → List (List Char)
  | [] => if acc.isEmpty then [] else [acc.reverse]
  | '\r' :: '\n' :: rest => acc.reverse :: splitLinesGo [] rest
  | c :: rest =>
      if lineBreakC c then acc.reverse :: splitLinesGo [] rest
      else splitLinesGo (c :: acc) rest

/-- Python `str.splitlines` (no trailing empty line). -/
def splitLinesL (l : List Char) : List (List Char) := splitLinesGo [] l

/-- `[l.strip() for l in text.splitlines() if l.strip()]`. -/
def pyLines (text : String) : List (List Char) :=
  ((splitLinesL text.data).map trimL).filter (fun l => l ≠ [])

/-- The keyword pass of `extract_total_textonly` (lines 315-324): the first
non-low-priority line containing a total keyword whose own text — or, failing
that, the next line if it is not low-priority — contains an `AMT` match,
yields that match's amount. -/
def total_keyword_pass : List (List Char) → Option ℚ
  | [] => none
  | l :: rest =>
      if ¬is_low_priority_line l ∧ has_total_key l then
        let m :=
          match amtSearch l with
          | some g => some g
          | none =>
              match rest with
              | nxt :: _ => if ¬is_low_priority_line nxt then amtSearch nxt else none
              | [] => none
        match m with
        | some g => some (parseAmtGroup g)
        | none => total_keyword_pass rest
      else total_keyword_pass rest

/-- `extract_total_textonly` (lines 311-330). -/
def extract_total_textonly (text : String) : Option ℚ :=
  let lines := pyLines text
  match total_keyword_pass lines with
  | some v => some v
  | none => best_amount lines

/-! ## C3: the text-only selection rule -/

/-- The `(score, value)` pair of one scanned match. -/
def toPair (lines : List (List Char)) (m : ℕ × ℚ) : ℚ × ℚ :=
  (score_amount_candidate m.1 (lines.getD m.1 []) m.2 lines, m.2)

/-- The comparison of `_best_amount` on scored pairs. -/
def pairStep (acc : Option (ℚ × ℚ)) (p : ℚ × ℚ) : Option (ℚ × ℚ) :=
  match acc with
  | none => some p
  | some b => if p.1 > b.1 ∨ (qabs (p.1 - b.1) < 1/1000000 ∧ p.2 > b.2) then some p else acc

/-- The claim's comparison: strictly higher score, or exactly equal score and
strictly larger value. -/
def lexStep (acc : Option (ℚ × ℚ)) (p : ℚ × ℚ) : Option (ℚ × ℚ) :=
  match acc with
  | none => some p
  | some b => if p.1 > b.1 ∨ (p.1 = b.1 ∧ p.2 > b.2) then some p else acc

/-- The amended claim's selection, over the scoring the source actually
computes (whose position term `max(0, 2*(1 - idx/len))` awards up to +2 to
the TOP line): among all matches on non-low-priority lines, take the maximal
score, and among the matches attaining it the largest value. -/
def claim_best_amount (lines : List (List Char)) : Option ℚ :=
  match (amount_matches lines).map (toPair lines) with
  | [] => none
  | p :: rest =>
      let M := rest.foldl (fun a q => qmax a q.1) p.1
      match (p :: rest).filterMap (fun q => if q.1 = M then some q.2 else none) with
      | [] => none
      | v :: vrest => some (vrest.foldl qmax v)

/-- The scoring as the spec words it: identical to `score_amount_candidate`
except that the position bonus favours lines nearer the BOTTOM of the
receipt — the source's own formula with the line index counted from the
bottom, awarding up to +2 to the last line. -/
def spec_score_amount_candidate (idx : ℕ) (line : List Char) (value : ℚ)
    (lines : List (List Char)) : ℚ :=
  let n := lines.length
  line_totalish_score line + line_currency_score line
  + (if idx + 1 < n then
       (8/10) * line_totalish_score (lines.getD (idx + 1) [])
         + (4/10) * line_currency_score (lines.getD (idx + 1) []) else 0)
  + (if 0 < idx then
       (6/10) * line_totalish_score (lines.getD (idx - 1) [])
         + (3/10) * line_currency_score (lines.getD (idx - 1) []) else 0)
  + (if 0 < n then qmax 0 (2 * (1 - ((n - 1 - idx : ℕ) : ℚ) / (n : ℚ))) else 0)
  + qmin value 50000 / 20000
  + (if is_low_priority_line line then -3 else 0)

def specToPair (lines : List (List Char)) (m : ℕ × ℚ) : ℚ × ℚ :=
  (spec_score_amount_candidate m.1 (lines.getD m.1 []) m.2 lines, m.2)

/-- The original claim's selection under the spec-worded bottom-position
scoring. -/
def spec_best_amount (lines : List (List Char)) : Option ℚ :=
  match (amount_matches lines).map (specToPair lines) with
  | [] => none
  | p :: rest =>
      let M := rest.foldl (fun a q => qmax a q.1) p.1
      match (p :: rest).filterMap (fun q => if q.1 = M then some q.2 else none) with
      | [] => none
      | v :: vrest => some (vrest.foldl qmax v)

theorem bestStep_eq_pairStep (lines : List (List Char)) (acc : Option (ℚ × ℚ)) (m : ℕ × ℚ) :
    bestStep lines acc m = pairStep acc (toPair lines m) := by
  cases acc <;> rfl

theorem le_qmax_left (a b : ℚ) : a ≤ qmax a b := by
  rw [qmax_eq]; exact le_max_left a b

theorem le_qmax_right (a b : ℚ) : b ≤ qmax a b := by
  rw [qmax_eq]; exact le_max_right a b

theorem qmax_cases (a b : ℚ) : qmax a b = a ∨ qmax a b = b := by
  unfold qmax; split
  · exact Or.inr rfl
  · exact Or.inl rfl

theorem foldl_qmax_ge_init (l : List ℚ) (a : ℚ) : a ≤ l.foldl qmax a := by
  induction l generalizing a with
  | nil => exact le_refl a
  | cons x xs ih => exact le_trans (le_qmax_left a x) (ih (qmax a x))

theorem foldl_qmax_ge_mem (l : List ℚ) (a x : ℚ) (hx : x ∈ l) : x ≤ l.foldl qmax a := by
  induction l generalizing a with
  | nil => simp at hx
  | cons y ys ih =>
    rcases List.mem_cons.mp hx with h | h
    · subst h
      exact le_trans (le_qmax_right a x) (foldl_qmax_ge_init ys (qmax a x))
    · exact ih (qmax a y) h

theorem foldl_qmax_mem (l : List ℚ) (a : ℚ) : l.foldl qmax a = a ∨ l.foldl qmax a ∈ l := by
  induction l generalizing a with
  | nil => exact Or.inl rfl
  | cons x xs ih =>
    rcases ih (qmax a x) with h | h
    · rcases qmax_cases a x with h2 | h2
      · left; rw [List.foldl_cons, h, h2]
      · right; rw [List.foldl_cons, h, h2]; exact List.mem_cons_self x xs
    · right; exact List.mem_cons_of_mem x h

/-- Characterization of the claim's best pair over a list: maximal score,
attained, and maximal value among the score-maximal pairs, attained. -/
def IsBestPair (ps : List (ℚ × ℚ)) (r : ℚ × ℚ) : Prop :=
  (∀ p ∈ ps, p.1 ≤ r.1) ∧ (∃ p ∈ ps, p.1 = r.1) ∧
  (∀ p ∈ ps, p.1 = r.1 → p.2 ≤ r.2) ∧ (∃ p ∈ ps, p.1 = r.1 ∧ p.2 = r.2)

theorem IsBestPair_unique (ps : List (ℚ × ℚ)) (r r' : ℚ × ℚ)
    (h : IsBestPair ps r) (h' : IsBestPair ps r') : r = r' := by
  obtain ⟨h1, ⟨p, hp, hp1⟩, h3, ⟨q, hq, hq1, hq2⟩⟩ := h
  obtain ⟨h1', ⟨p', hp', hp1'⟩, h3', ⟨q', hq', hq1', hq2'⟩⟩ := h'
  have hfst : r.1 = r'.1 := le_antisymm (hp1 ▸ h1' p hp) (hp1' ▸ h1 p' hp')
  have hsnd : r.2 = r'.2 := by
    refine le_antisymm ?_ ?_
    · rw [← hq2]; exact h3' q hq (hq1.trans hfst)
    · rw [← hq2']; exact h3 q' hq' (hq1'.trans hfst.symm)
  exact Prod.ext hfst hsnd

theorem lexFold_some (ps : List (ℚ × ℚ)) (b : ℚ × ℚ) :
    ∃ r, ps.foldl lexStep (some b) = some r ∧ IsBestPair (b :: ps) r := by
  induction ps generalizing b with
  | nil =>
    refine ⟨b, rfl, ?_, ⟨b, List.mem_singleton_self b, rfl⟩, ?_,
      ⟨b, List.mem_singleton_self b, rfl, rfl⟩⟩
    · intro p hp; rw [List.mem_singleton.mp hp]
    · intro p hp _; rw [List.mem_singleton.mp hp]
  | cons q qs ih =>
    rw [List.foldl_cons]
    by_cases hc : q.1 > b.1 ∨ (q.1 = b.1 ∧ q.2 > b.2)
    · have hq : lexStep (some b) q = some q := by
        show (if q.1 > b.1 ∨ (q.1 = b.1 ∧ q.2 > b.2) then some q else some b) = some q
        rw [if_pos hc]
      rw [hq]
      obtain ⟨r, hr, hr1, ⟨p, hp, hp1⟩, hr3, ⟨w, hw, hw1, hw2⟩⟩ := ih q
      have hb_le_q : b.1 ≤ q.1 := by
        rcases hc with h | ⟨h, _⟩
        · exact le_of_lt h
        · exact le_of_eq h.symm
      refine ⟨r, hr, ?_, ⟨p, ?_, hp1⟩, ?_, ⟨w, ?_, hw1, hw2⟩⟩
      · intro y hy
        rcases List.mem_cons.mp hy with h | h
        · subst h; exact le_trans hb_le_q (hr1 q (List.mem_cons_self q qs))
        · exact hr1 y h
      · rcases List.mem_cons.mp hp with h | h
        · subst h; exact List.mem_cons_of_mem b (List.mem_cons_self p qs)
        · exact List.mem_cons_of_mem b (List.mem_cons_of_mem q h)
      · intro y hy hy1
        rcases List.mem_cons.mp hy with h | h
        · subst h
          have hq_le : q.1 ≤ y.1 := by rw [hy1]; exact hr1 q (List.mem_cons_self q qs)
          have hqb : q.1 = y.1 := le_antisymm hq_le hb_le_q
          rcases hc with h2 | ⟨h2, h3⟩
          · exact absurd h2 (by rw [hqb]; exact lt_irrefl y.1)
          · have hq2 : q.2 ≤ r.2 := hr3 q (List.mem_cons_self q qs) (by rw [hqb, hy1])
            exact le_trans (le_of_lt h3) hq2
        · exact hr3 y h hy1
      · rcases List.mem_cons.mp hw with h | h
        · subst h; exact List.mem_cons_of_mem b (List.mem_cons_self w qs)
        · exact List.mem_cons_of_mem b (List.mem_cons_of_mem q h)
    · have hq : lexStep (some b) q = some b := by
        show (if q.1 > b.1 ∨ (q.1 = b.1 ∧ q.2 > b.2) then some q else some b) = some b
        rw [if_neg hc]
      rw [hq]
      obtain ⟨r, hr, hr1, ⟨p, hp, hp1⟩, hr3, ⟨w, hw, hw1, hw2⟩⟩ := ih b
      push_neg at hc
      obtain ⟨hc1, hc2⟩ := hc
      refine ⟨r, hr, ?_, ⟨p, ?_, hp1⟩, ?_, ⟨w, ?_, hw1, hw2⟩⟩
      · intro y hy
        rcases List.mem_cons.mp hy with h | h
        · rw [h]; exact hr1 b (List.mem_cons_self b qs)
        · rcases List.mem_cons.mp h with h2 | h2
          · subst h2
            exact le_trans hc1 (hr1 b (List.mem_cons_self b qs))
          · exact hr1 y (List.mem_cons_of_mem b h2)
      · rcases List.mem_cons.mp hp with h | h
        · subst h; exact List.mem_cons_self p _
        · exact List.mem_cons_of_mem b (List.mem_cons_of_mem q h)
      · intro y hy hy1
        rcases List.mem_cons.mp hy with h | h
        · rw [h] at hy1 ⊢; exact hr3 b (List.mem_cons_self b qs) hy1
        · rcases List.mem_cons.mp h with h2 | h2
          · subst h2
            have hble : b.1 ≤ r.1 := hr1 b (List.mem_cons_self b qs)
            have hqb : y.1 = b.1 := by
              refine le_antisymm hc1 ?_
              rw [hy1]; exact hble
            have hb2 : b.2 ≤ r.2 := hr3 b (List.mem_cons_self b qs) (by rw [← hqb, hy1])
            exact le_trans (hc2 hqb) hb2
          · exact hr3 y (List.mem_cons_of_mem b h2) hy1
      · rcases List.mem_cons.mp hw with h | h
        · subst h; exact List.mem_cons_self w _
        · exact List.mem_cons_of_mem b (List.mem_cons_of_mem q h)

theorem foldl_bestStep_eq (lines : List (List Char)) (ms : List (ℕ × ℚ))
    (acc : Option (ℚ × ℚ)) :
    ms.foldl (bestStep lines) acc = (ms.map (toPair lines)).foldl pairStep acc := by
  induction ms generalizing acc with
  | nil => rfl
  | cons m ms ih =>
    rw [List.foldl_cons, List.map_cons, List.foldl_cons, bestStep_eq_pairStep]
    exact ih _

theorem pairStep_eq_lexStep (b q : ℚ × ℚ)
    (hsep : q.1 = b.1 ∨ 1/1000000 ≤ qabs (q.1 - b.1)) :
    pairStep (some b) q = lexStep (some b) q := by
  show (if q.1 > b.1 ∨ (qabs (q.1 - b.1) < 1/1000000 ∧ q.2 > b.2) then some q else some b)
      = (if q.1 > b.1 ∨ (q.1 = b.1 ∧ q.2 > b.2) then some q else some b)
  rcases hsep with he | hf
  · have h0 : qabs (q.1 - b.1) < 1/1000000 := by
      rw [he, qabs_eq, sub_self, abs_zero]; norm_num
    have h1 : ¬ q.1 > b.1 := by rw [he]; exact lt_irrefl b.1
    by_cases h2 : q.2 > b.2
    · rw [if_pos (Or.inr ⟨h0, h2⟩), if_pos (Or.inr ⟨he, h2⟩)]
    · have hA : ¬(q.1 > b.1 ∨ (qabs (q.1 - b.1) < 1/1000000 ∧ q.2 > b.2)) := by
        rintro (h | ⟨_, h⟩)
        · exact h1 h
        · exact h2 h
      have hB : ¬(q.1 > b.1 ∨ (q.1 = b.1 ∧ q.2 > b.2)) := by
        rintro (h | ⟨_, h⟩)
        · exact h1 h
        · exact h2 h
      rw [if_neg hA, if_neg hB]
  · have hne : ¬ q.1 = b.1 := by
      intro he
      rw [he, qabs_eq, sub_self, abs_zero] at hf
      norm_num at hf
    have hnear : ¬ qabs (q.1 - b.1) < 1/1000000 := not_lt.mpr hf
    by_cases h1 : q.1 > b.1
    · rw [if_pos (Or.inl h1), if_pos (Or.inl h1)]
    · have hA : ¬(q.1 > b.1 ∨ (qabs (q.1 - b.1) < 1/1000000 ∧ q.2 > b.2)) := by
        rintro (h | ⟨h, _⟩)
        · exact h1 h
        · exact hnear h
      have hB : ¬(q.1 > b.1 ∨ (q.1 = b.1 ∧ q.2 > b.2)) := by
        rintro (h | ⟨h, _⟩)
        · exact h1 h
        · exact hne h
      rw [if_neg hA, if_neg hB]

theorem pairFold_eq_lexFold (S : List (ℚ × ℚ))
    (hsep : ∀ p ∈ S, ∀ q ∈ S, p.1 = q.1 ∨ 1/1000000 ≤ qabs (p.1 - q.1)) :
    ∀ ps : List (ℚ × ℚ), (∀ p ∈ ps, p ∈ S) → ∀ b ∈ S,
      ps.foldl pairStep (some b) = ps.foldl lexStep (some b) := by
  intro ps
  induction ps with
  | nil => intro _ b _; rfl
  | cons q qs ih =>
    intro hps b hb
    have hq : q ∈ S := hps q (List.mem_cons_self q qs)
    have hqs : ∀ p ∈ qs, p ∈ S := fun p hp => hps p (List.mem_cons_of_mem q hp)
    rw [List.foldl_cons, List.foldl_cons, pairStep_eq_lexStep b q (hsep q hq b hb)]
    by_cases hcond : q.1 > b.1 ∨ (q.1 = b.1 ∧ q.2 > b.2)
    · have hls : lexStep (some b) q = some q := by
        show (if q.1 > b.1 ∨ (q.1 = b.1 ∧ q.2 > b.2) then some q else some b) = some q
        rw [if_pos hcond]
      rw [hls]; exact ih hqs q hq
    · have hls : lexStep (some b) q = some b := by
        show (if q.1 > b.1 ∨ (q.1 = b.1 ∧ q.2 > b.2) then some q else some b) = some b
        rw [if_neg hcond]
      rw [hls]; exact ih hqs b hb

theorem filterSome_iff (M : ℚ) (q : ℚ × ℚ) (x : ℚ) :
    (if q.1 = M then some q.2 else none) = some x ↔ q.1 = M ∧ q.2 = x := by
  constructor
  · intro hx
    by_cases h : q.1 = M
    · rw [if_pos h] at hx
      exact ⟨h, Option.some.inj hx⟩
    · rw [if_neg h] at hx
      exact absurd hx (fun hc => Option.noConfusion hc)
  · rintro ⟨h1, h2⟩
    rw [if_pos h1, h2]

theorem foldl_qmax_fst (rest : List (ℚ × ℚ)) (a : ℚ) :
    rest.foldl (fun x r => qmax x r.1) a = (rest.map Prod.fst).foldl qmax a := by
  rw [List.foldl_map]

theorem specSelect_isBest (p : ℚ × ℚ) (rest : List (ℚ × ℚ)) (v : ℚ) (vrest : List ℚ)
    (hvs : (p :: rest).filterMap
        (fun q => if q.1 = rest.foldl (fun a r => qmax a r.1) p.1 then some q.2 else none)
        = v :: vrest) :
    IsBestPair (p :: rest) (rest.foldl (fun a r => qmax a r.1) p.1, vrest.foldl qmax v) := by
  have hMfst : rest.foldl (fun a r => qmax a r.1) p.1 = (rest.map Prod.fst).foldl qmax p.1 :=
    foldl_qmax_fst rest p.1
  have hub : ∀ q ∈ p :: rest, q.1 ≤ rest.foldl (fun a r => qmax a r.1) p.1 := by
    intro q hq
    rw [hMfst]
    rcases List.mem_cons.mp hq with h | h
    · rw [h]
      exact foldl_qmax_ge_init _ _
    · exact foldl_qmax_ge_mem _ _ _ (List.mem_map_of_mem Prod.fst h)
  have hex : ∃ q ∈ p :: rest, q.1 = rest.foldl (fun a r => qmax a r.1) p.1 := by
    rcases foldl_qmax_mem (rest.map Prod.fst) p.1 with h | h
    · exact ⟨p, List.mem_cons_self p rest, by rw [hMfst, h]⟩
    · rcases List.mem_map.mp h with ⟨q, hq, hq1⟩
      exact ⟨q, List.mem_cons_of_mem p hq, by rw [hMfst]; exact hq1⟩
  have hmem : ∀ x, x ∈ v :: vrest ↔
      ∃ q ∈ p :: rest, q.1 = rest.foldl (fun a r => qmax a r.1) p.1 ∧ q.2 = x := by
    intro x
    rw [← hvs, List.mem_filterMap]
    constructor
    · rintro ⟨q, hq, hq2⟩
      exact ⟨q, hq, (filterSome_iff _ q x).mp hq2⟩
    · rintro ⟨q, hq, h1, h2⟩
      exact ⟨q, hq, (filterSome_iff _ q x).mpr ⟨h1, h2⟩⟩
  have hV : vrest.foldl qmax v ∈ v :: vrest := by
    rcases foldl_qmax_mem vrest v with h | h
    · rw [h]; exact List.mem_cons_self v vrest
    · exact List.mem_cons_of_mem v h
  refine ⟨hub, hex, ?_, ?_⟩
  · intro q hq hq1
    have hin : q.2 ∈ v :: vrest := (hmem q.2).mpr ⟨q, hq, hq1, rfl⟩
    rcases List.mem_cons.mp hin with h | h
    · rw [h]; exact foldl_qmax_ge_init _ _
    · exact foldl_qmax_ge_mem _ _ _ h
  · rcases (hmem _).mp hV with ⟨q, hq, h1, h2⟩
    exact ⟨q, hq, h1, h2⟩

theorem claim_best_eq_lex (lines : List (List Char)) :
    claim_best_amount lines =
      (((amount_matches lines).map (toPair lines)).foldl lexStep none).map
        (fun p => p.2) := by
  cases hps : (amount_matches lines).map (toPair lines) with
  | nil => simp only [claim_best_amount, hps]; rfl
  | cons p rest =>
    obtain ⟨r, hr, hbest⟩ := lexFold_some rest p
    have hR : (List.foldl lexStep none (p :: rest)).map (fun q => q.2) = some r.2 := by
      rw [List.foldl_cons]
      show (rest.foldl lexStep (some p)).map (fun q => q.2) = some r.2
      rw [hr]; rfl
    rw [hR]
    simp only [claim_best_amount, hps]
    cases hvs : (p :: rest).filterMap
        (fun q => if q.1 = rest.foldl (fun a r => qmax a r.1) p.1 then some q.2 else none) with
    | nil =>
      exfalso
      have hMfst : rest.foldl (fun a r => qmax a r.1) p.1
          = (rest.map Prod.fst).foldl qmax p.1 := foldl_qmax_fst rest p.1
      have hex : ∃ q ∈ p :: rest, q.1 = rest.foldl (fun a r => qmax a r.1) p.1 := by
        rcases foldl_qmax_mem (rest.map Prod.fst) p.1 with h | h
        · exact ⟨p, List.mem_cons_self p rest, by rw [hMfst, h]⟩
        · rcases List.mem_map.mp h with ⟨q, hq, hq1⟩
          exact ⟨q, List.mem_cons_of_mem p hq, by rw [hMfst]; exact hq1⟩
      obtain ⟨q, hq, hq1⟩ := hex
      have hin : q.2 ∈ (p :: rest).filterMap
          (fun q => if q.1 = rest.foldl (fun a r => qmax a r.1) p.1 then some q.2 else none) :=
        List.mem_filterMap.mpr ⟨q, hq, (filterSome_iff _ q q.2).mpr ⟨hq1, rfl⟩⟩
      rw [hvs] at hin
      exact absurd hin (List.not_mem_nil _)
    | cons v vrest =>
      have h2 : vrest.foldl qmax v = r.2 :=
        congrArg Prod.snd (IsBestPair_unique _ _ _ (specSelect_isBest p rest v vrest hvs) hbest)
      show some (vrest.foldl qmax v) = some r.2
      rw [h2]

theorem best_amount_eq_claim (lines : List (List Char))
    (hsep : ∀ p ∈ (amount_matches lines).map (toPair lines),
        ∀ q ∈ (amount_matches lines).map (toPair lines),
        p.1 = q.1 ∨ 1/1000000 ≤ qabs (p.1 - q.1)) :
    best_amount lines = claim_best_amount lines := by
  rw [claim_best_eq_lex]
  show ((amount_matches lines).foldl (bestStep lines) none).map (fun p => p.2)
      = (((amount_matches lines).map (toPair lines)).foldl lexStep none).map (fun p => p.2)
  rw [foldl_bestStep_eq]
  cases hps : (amount_matches lines).map (toPair lines) with
  | nil => rfl
  | cons p rest =>
    rw [List.foldl_cons, List.foldl_cons]
    show (rest.foldl pairStep (some p)).map (fun q => q.2)
        = (rest.foldl lexStep (some p)).map (fun q => q.2)
    rw [pairFold_eq_lexFold ((amount_matches lines).map (toPair lines)) hsep rest
        (fun q hq => by rw [hps]; exact List.mem_cons_of_mem p hq) p
        (by rw [hps]; exact List.mem_cons_self p rest)]

unseal Rat.add Rat.sub Rat.mul Rat.inv amtFindAllF in
/-- C3 counterexample, refuting two parts of the claim.  (i) The keyword
pass short-circuits the scoring: the first line holds a total keyword, so its
amount 1.00 is returned although the maximum-scoring monetary match over the
non-low-priority lines is 50,000.00 on the second line.  (ii) The position
term of the scoring awards up to +2 to the TOP line, not the bottom: on a
keyword-free receipt the code returns the top amount 5.00 while the claim's
bottom-position scoring selects the bottom amount 9.00. -/
theorem extract_total_textonly_cex :
    extract_total_textonly "TOTAL 1.00\nPHP AMOUNT DUE GRAND TOTAL 50,000.00" = some 1 ∧
    claim_best_amount (pyLines "TOTAL 1.00\nPHP AMOUNT DUE GRAND TOTAL 50,000.00")
      = some 50000 ∧
    (some (1 : ℚ)) ≠ some (50000 : ℚ) ∧
    total_keyword_pass (pyLines "abc 5.00\n9.00 xyz") = none ∧
    extract_total_textonly "abc 5.00\n9.00 xyz" = some 5 ∧
    spec_best_amount (pyLines "abc 5.00\n9.00 xyz") = some 9 ∧
    (some (5 : ℚ)) ≠ some (9 : ℚ) :=
  ⟨by decide, by decide, by decide, by decide, by decide, by decide, by decide⟩

/-- C3: amended. When no line containing a total keyword yields a monetary
match (the keyword pass returns nothing) and the candidate scores are pairwise
either exactly equal or at least 1e-6 apart, extract_total_textonly returns
the value of the maximum-scoring monetary match over the non-low-priority
lines — under the scoring the source computes, whose position term
`max(0, 2*(1 - idx/len))` favours the TOP line, inverting the spec's
bottom-position bonus — with ties broken towards the larger numeric value. -/
theorem extract_total_textonly_amended (text : String)
    (hkw : total_keyword_pass (pyLines text) = none)
    (hsep : ∀ p ∈ (amount_matches (pyLines text)).map (toPair (pyLines text)),
        ∀ q ∈ (amount_matches (pyLines text)).map (toPair (pyLines text)),
        p.1 = q.1 ∨ 1/1000000 ≤ qabs (p.1 - q.1)) :
    extract_total_textonly text = claim_best_amount (pyLines text) := by
  show (match total_keyword_pass (pyLines text) with
        | some v => some v
        | none => best_amount (pyLines text)) = claim_best_amount (pyLines text)
  rw [hkw]
  exact best_amount_eq_claim (pyLines text) hsep

unseal Rat.add Rat.sub Rat.mul Rat.inv amtFindAllF in
/-- The amended selection rule at a concrete keyword-free two-line receipt:
the higher-scoring top-line amount 5.00 wins over the bottom 9.00. -/
theorem extract_total_textonly_amended_witness :
    extract_total_textonly "abc 5.00\n9.00 xyz"
        = claim_best_amount (pyLines "abc 5.00\n9.00 xyz") ∧
    extract_total_textonly "abc 5.00\n9.00 xyz" = some 5 :=
  ⟨extract_total_textonly_amended "abc 5.00\n9.00 xyz" (by decide) (by decide),
   by decide⟩

/-! ## `extract_total_layout` (parser.py lines 109-309) -/

/-- `_norm` (lines 38-39): collapse runs of two or more whitespace characters
to one space, then strip. -/
def normL (l : List Char) : List Char := trimL (collapseWs2 l)

/-- Direct embedding of an integer into `ℚ` (kernel-friendly, like `qOfNat`). -/
def qOfInt (n : ℤ) : ℚ := ⟨n, 1, one_ne_zero, Nat.coprime_one_right _⟩

/-- Executable `max` on `ℤ`. -/
def imax (a b : ℤ) : ℤ := if a ≤ b then b else a

/-- One raw word record of `words: List[Dict]`: the fields read by
`extract_total_layout`, already carrying the types the code coerces them to
with `int(...)` and `float(...)`.  A NaN confidence is unrepresentable in `ℚ`
and reads as the 0 the code replaces it with. -/
structure OcrWord where
  text : String
  conf : ℚ
  left : ℤ
  top : ℤ
  width : ℤ
  height : ℤ
  block_num : ℤ
  par_num : ℤ
  line_num : ℤ
  word_num : ℤ
deriving Repr, DecidableEq, Inhabited

/-- A prepared token (lines 116-146): stripped non-empty text, width and
height clamped to at least 1. -/
structure Token where
  text : List Char
  conf : ℚ
  left : ℚ
  top : ℚ
  width : ℚ
  height : ℚ
  block_num : ℤ
  par_num : ℤ
  line_num : ℤ
  word_num : ℤ
deriving Repr, DecidableEq, Inhabited

def Token.right (t : Token) : ℚ := t.left + t.width

def Token.bottom (t : Token) : ℚ := t.top + t.height

def Token.center_x (t : Token) : ℚ := t.left + t.width / 2

def Token.center_y (t : Token) : ℚ := t.top + t.height / 2

/-- Token preparation (lines 116-146): skip words whose stripped text is
empty, clamp width and height to at least 1. -/
def mkToken (w : OcrWord) : Option Token :=
  let text := trimL w.text.data
  if text = [] then none
  else some
    { text := text
      conf := w.conf
      left := qOfInt w.left
      top := qOfInt w.top
      width := qOfInt (imax w.width 1)
      height := qOfInt (imax w.height 1)
      block_num := w.block_num
      par_num := w.par_num
      line_num := w.line_num
      word_num := w.word_num }

def tokKey (t : Token) : ℤ × ℤ × ℤ := (t.block_num, t.par_num, t.line_num)

/-- The keys of `line_map` (lines 152-155) in Python dict insertion order,
i.e. in order of first occurrence. -/
def orderedKeysRaw (toks : List Token) : List (ℤ × ℤ × ℤ) :=
  toks.foldl (fun acc t => if tokKey t ∈ acc then acc else acc ++ [tokKey t]) []

/-- `line_map[k]`: the tokens of one line, in token order. -/
def lineGroup (toks : List Token) (k : ℤ × ℤ × ℤ) : List Token :=
  toks.filter (fun t => tokKey t = k)

def listMin (d : ℚ) : List ℚ → ℚ
  | [] => d
  | x :: xs => xs.foldl qmin x

def listMax (d : ℚ) : List ℚ → ℚ
  | [] => d
  | x :: xs => xs.foldl qmax x

/-- `ordered_keys` (lines 157-163): line keys sorted stably by
`(min top, min left)` of their tokens. -/
def ordered_keys (toks : List Token) : List (ℤ × ℤ × ℤ) :=
  (orderedKeysRaw toks).insertionSort (fun k1 k2 =>
    listMin 0 ((lineGroup toks k1).map Token.top)
        < listMin 0 ((lineGroup toks k2).map Token.top)
    ∨ (listMin 0 ((lineGroup toks k1).map Token.top)
          = listMin 0 ((lineGroup toks k2).map Token.top)
        ∧ listMin 0 ((lineGroup toks k1).map Token.left)
            ≤ listMin 0 ((lineGroup toks k2).map Token.left)))

/-- `sorted(line_map[key], key=lambda t: t["left"])` (line 169). -/
def lineTokensSorted (toks : List Token) (k : ℤ × ℤ × ℤ) : List Token :=
  (lineGroup toks k).insertionSort (fun t1 t2 => t1.left ≤ t2.left)

structure LineInfo where
  index : ℕ
  text : List Char
  tokens : List Token
  y_top : ℚ
  y_bottom : ℚ
  y_mid : ℚ
  x_mid : ℚ
  height_mean : ℚ
  total_centers : List ℚ
deriving Repr, DecidableEq, Inhabited

/-- `" ".join(...)`. -/
def joinSpace : List (List Char) → List Char
  | [] => []
  | [x] => x
  | x :: y :: rest => x ++ ' ' :: joinSpace (y :: rest)

/-- `" ".join(_norm(t["text"]) for t in line_tokens if _norm(t["text"]))`. -/
def lineText (ts : List Token) : List Char :=
  joinSpace ((ts.map (fun t => normL t.text)).filter (fun l => l ≠ []))

/-- One entry of `line_infos` (lines 168-191). -/
def mkLineInfo (toks : List Token) (idx : ℕ) (k : ℤ × ℤ × ℤ) : Option LineInfo :=
  let lts := lineTokensSorted toks k
  if lts = [] then none
  else some
    { index := idx
      text := lineText lts
      tokens := lts
      y_top := listMin 0 (lts.map Token.top)
      y_bottom := listMax 0 (lts.map Token.bottom)
      y_mid := (listMin 0 (lts.map Token.top) + listMax 0 (lts.map Token.bottom)) / 2
      x_mid := (listMin 0 (lts.map Token.left) + listMax 0 (lts.map Token.right)) / 2
      height_mean := (lts.map Token.height).foldl (fun a b => a + b) 0 / qOfNat lts.length
      total_centers := (lts.filter (fun t => has_total_key t.text)).map Token.center_x }

def line_infos (toks : List Token) : List LineInfo :=
  (ordered_keys toks).enum.filterMap (fun p => mkLineInfo toks p.1 p.2)

/-- `all_heights` (lines 166, 177): the positive token heights of the
processed lines, in line order. -/
def all_heights (toks : List Token) : List ℚ :=
  (ordered_keys toks).enum.flatMap (fun p =>
    let lts := lineTokensSorted toks p.2
    if lts = [] then []
    else (lts.map Token.height).filter (fun h => 0 < h))

/-- `statistics.median` on a non-empty list. -/
def median (l : List ℚ) : ℚ :=
  let s := l.insertionSort (fun a b => a ≤ b)
  if s.length % 2 = 1 then s.getD (s.length / 2) 0
  else (s.getD (s.length / 2 - 1) 0 + s.getD (s.length / 2) 0) / 2

/-- Python `x or 1.0` on a float. -/
def orOne (q : ℚ) : ℚ := if q = 0 then 1 else q

/-- `tot_lines` (lines 200-202). -/
def tot_lines (infos : List LineInfo) : List LineInfo :=
  infos.filter (fun info => has_total_key info.text)

/-- `re.sub(r"[^0-9.,]", "", ·)`. -/
def cleanNum (l : List Char) : List Char :=
  l.filter (fun c => c.isDigit || c = '.' || c = ',')

/-- The accumulation loop of `_tokens_for_amount` (lines 208-219): append a
token when the accumulated digits are still a prefix of the target, stop once
the target is complete. -/
def tokensForAmountGo (target : List Char) : List Char → List Token → List Token
  | _, [] => []
  | acc, tok :: rest =>
      let cleaned := cleanNum tok.text
      if cleaned = [] then tokensForAmountGo target acc rest
      else
        if (acc ++ cleaned).isPrefixOf target then
          if acc ++ cleaned = target then [tok]
          else tok :: tokensForAmountGo target (acc ++ cleaned) rest
        else tokensForAmountGo target acc rest

/-- `_tokens_for_amount` (lines 203-224). -/
def tokens_for_amount (line_tokens : List Token) (match_str : List Char) : List Token :=
  let target := cleanNum match_str
  if target = [] then line_tokens.filter (fun t => t.text.any Char.isDigit)
  else
    match tokensForAmountGo target [] line_tokens with
    | [] => line_tokens.filter (fun t => t.text.any Char.isDigit)
    | sel => sel

structure CandRec where
  value : ℚ
  line : LineInfo
  toks : List Token
  bleft : ℚ
  btop : ℚ
  bright : ℚ
  bbottom : ℚ
  center_x : ℚ
  center_y : ℚ
  avg_height : ℚ
  conf : ℚ
deriving Repr, DecidableEq, Inhabited

/-- One candidate record (lines 226-254) for an `AMT` capture group on a
line; `None` when the token subset is empty.  In `ℚ` no conf is NaN, and the
subset is non-empty, so `avg_conf` is always the plain average. -/
def mkCand (info : LineInfo) (g : List Char) : Option CandRec :=
  match tokens_for_amount info.tokens g with
  | [] => none
  | t0 :: trest =>
      some
        { value := parseAmtGroup g
          line := info
          toks := t0 :: trest
          bleft := listMin 0 ((t0 :: trest).map Token.left)
          btop := listMin 0 ((t0 :: trest).map Token.top)
          bright := listMax 0 ((t0 :: trest).map Token.right)
          bbottom := listMax 0 ((t0 :: trest).map Token.bottom)
          center_x := (listMin 0 ((t0 :: trest).map Token.left)
            + listMax 0 ((t0 :: trest).map Token.right)) / 2
          center_y := (listMin 0 ((t0 :: trest).map Token.top)
            + listMax 0 ((t0 :: trest).map Token.bottom)) / 2
          avg_height := ((t0 :: trest).map Token.height).foldl (fun a b => a + b) 0
            / qOfNat (t0 :: trest).length
          conf := ((t0 :: trest).map Token.conf).foldl (fun a b => a + b) 0
            / qOfNat (t0 :: trest).length }

/-- `candidates` (lines 226-254): every `AMT` match of every non-empty line
text. -/
def candidates (infos : List LineInfo) : List CandRec :=
  infos.flatMap (fun info =>
    if info.text = [] then []
    else (amtFindAll info.text).filterMap (fun g => mkCand info g))

/-- `_candidate_score` (lines 256-302). -/
def candidate_score (median_height : ℚ) (line_count : ℕ) (tls : List LineInfo)
    (cand : CandRec) : ℚ :=
  let idx := cand.line.index
  let base1 := line_totalish_score cand.line.text * (12/10)
    + line_currency_score cand.line.text
    + qmin cand.conf 95 / 25
  let height_ratio := cand.avg_height / orOne median_height
  let base2 := base1 + (if height_ratio > 11/10 then qmin (height_ratio - 1) (5/2) else 0)
  let rel_pos := if 1 < line_count then qOfNat idx / qOfNat (line_count - 1) else 1
  let base3 := base2 + qmax 0 ((11/5) * (1 - rel_pos))
  let prox :=
    match tls with
    | [] => 0
    | _ :: _ =>
        tls.foldl (fun best tl =>
          let diff := (Int.ofNat idx - Int.ofNat tl.index).natAbs
          let b0 : ℚ :=
            if diff = 0 then 6
            else if diff = 1 then 9/2
            else if diff = 2 then 3
            else qmax 0 (3 - (7/10) * qOfNat diff)
          let b1 := b0 - qmin (qabs (cand.center_y - tl.y_mid) / orOne median_height) 4
          let centers := match tl.total_centers with | [] => [tl.x_mid] | cs => cs
          let horiz_gap := listMin 0 (centers.map (fun cx => qabs (cand.center_x - cx)))
          let denom := qmax (cand.bright - cand.bleft) median_height
          qmax best (b1 - qmin (horiz_gap / denom) 4)) (-5)
  base3 + prox + (if is_low_priority_line cand.line.text then -4 else 0)

/-- The final selection (lines 304-308): Python's
`max(candidates, key=_candidate_score, default=None)` picks the first
candidate attaining the maximal score; the text-only path is the fallback. -/
def layout_select (infos : List LineInfo) (median_height : ℚ)
    (full_text : String) : Option ℚ :=
  match candidates infos with
  | [] => extract_total_textonly full_text
  | c0 :: cs =>
      some (((c0 :: cs).getD
        (firstMaxIdx (candidate_score median_height infos.length (tot_lines infos))
          (c0 :: cs)) c0).value)

/-- Lines 148-202: group the tokens into lines, compute the height median. -/
def layout_from_tokens (toks : List Token) (full_text : String) : Option ℚ :=
  match line_infos toks with
  | [] => extract_total_textonly full_text
  | i0 :: is =>
      layout_select (i0 :: is)
        (orOne (match all_heights toks with
          | [] => 1
          | h :: hs => median (h :: hs)))
        full_text

/-- `extract_total_layout` (lines 109-309). -/
def extract_total_layout (words : List OcrWord) (full_text : String) : Option ℚ :=
  match words with
  | [] => extract_total_textonly full_text
  | _ :: _ =>
      match words.filterMap mkToken with
      | [] => extract_total_textonly full_text
      | t0 :: ts => layout_from_tokens (t0 :: ts) full_text

/-! ## C8: non-negativity of the extracted totals -/

theorem total_keyword_pass_nonneg (lines : List (List Char)) (v : ℚ)
    (h : total_keyword_pass lines = some v) : 0 ≤ v := by
  induction lines with
  | nil => exact Option.noConfusion h
  | cons l rest ih =>
    simp only [total_keyword_pass] at h
    split at h
    · split at h
      · rename_i g heq
        rw [← Option.some.inj h]
        exact parseAmtGroup_nonneg g
      · exact ih h
    · exact ih h

theorem amount_matches_nonneg (lines : List (List Char)) (m : ℕ × ℚ)
    (hm : m ∈ amount_matches lines) : 0 ≤ m.2 := by
  unfold amount_matches at hm
  rcases List.mem_flatMap.mp hm with ⟨p, hp, hmem⟩
  split at hmem
  · exact absurd hmem (List.not_mem_nil m)
  · rcases List.mem_map.mp hmem with ⟨g, hg, hgeq⟩
    rw [← hgeq]
    exact parseAmtGroup_nonneg g

theorem bestStep_fold_nonneg (lines : List (List Char)) (ms : List (ℕ × ℚ))
    (hms : ∀ m ∈ ms, 0 ≤ m.2) (acc : Option (ℚ × ℚ))
    (hacc : ∀ bp, acc = some bp → 0 ≤ bp.2) :
    ∀ bp, ms.foldl (bestStep lines) acc = some bp → 0 ≤ bp.2 := by
  induction ms generalizing acc with
  | nil => exact hacc
  | cons m ms ih =>
    intro bp h
    rw [List.foldl_cons] at h
    refine ih (fun x hx => hms x (List.mem_cons_of_mem m hx)) (bestStep lines acc m) ?_ bp h
    intro cp hcp
    have hm : 0 ≤ m.2 := hms m (List.mem_cons_self m ms)
    cases acc with
    | none =>
      have h2 := Option.some.inj hcp
      rw [← h2]
      exact hm
    | some b =>
      have hb : 0 ≤ b.2 := hacc b rfl
      have hif : bestStep lines (some b) m
          = (if score_amount_candidate m.1 (lines.getD m.1 []) m.2 lines > b.1
                ∨ (qabs (score_amount_candidate m.1 (lines.getD m.1 []) m.2 lines - b.1)
                      < 1/1000000
                    ∧ m.2 > b.2)
             then some (score_amount_candidate m.1 (lines.getD m.1 []) m.2 lines, m.2)
             else some b) := rfl
      rw [hif] at hcp
      split at hcp
      · rw [← Option.some.inj hcp]
        exact hm
      · rw [← Option.some.inj hcp]
        exact hb

theorem best_amount_nonneg (lines : List (List Char)) (v : ℚ)
    (h : best_amount lines = some v) : 0 ≤ v := by
  unfold best_amount at h
  rcases Option.map_eq_some'.mp h with ⟨bp, hbp, hv⟩
  rw [← hv]
  exact bestStep_fold_nonneg lines (amount_matches lines)
    (fun m hm => amount_matches_nonneg lines m hm) none
    (fun _ hc => Option.noConfusion hc) bp hbp

theorem extract_total_textonly_nonneg (text : String) (v : ℚ)
    (h : extract_total_textonly text = some v) : 0 ≤ v := by
  simp only [extract_total_textonly] at h
  cases hk : total_keyword_pass (pyLines text) with
  | some w =>
    rw [hk] at h
    rw [← Option.some.inj h]
    exact total_keyword_pass_nonneg (pyLines text) w hk
  | none =>
    rw [hk] at h
    exact best_amount_nonneg (pyLines text) v h

theorem candidates_nonneg (infos : List LineInfo) (c : CandRec)
    (hc : c ∈ candidates infos) : 0 ≤ c.value := by
  unfold candidates at hc
  rcases List.mem_flatMap.mp hc with ⟨info, hinfo, hmem⟩
  split at hmem
  · exact absurd hmem (List.not_mem_nil c)
  · rcases List.mem_filterMap.mp hmem with ⟨g, hg, hgc⟩
    unfold mkCand at hgc
    split at hgc
    · exact Option.noConfusion hgc
    · rw [← Option.some.inj hgc]
      exact parseAmtGroup_nonneg g

theorem layout_select_nonneg (infos : List LineInfo) (mh : ℚ) (text : String)
    (v : ℚ) (h : layout_select infos mh text = some v) : 0 ≤ v := by
  unfold layout_select at h
  cases hc : candidates infos with
  | nil =>
    rw [hc] at h
    exact extract_total_textonly_nonneg text v h
  | cons c0 cs =>
    rw [hc] at h
    rw [← Option.some.inj h]
    have hlt := (firstMaxIdx_spec
      (candidate_score mh infos.length (tot_lines infos)) (c0 :: cs) (by simp)).1
    refine candidates_nonneg infos _ ?_
    rw [hc]
    exact getD_mem (c0 :: cs) _ c0 hlt

theorem layout_from_tokens_nonneg (toks : List Token) (text : String) (v : ℚ)
    (h : layout_from_tokens toks text = some v) : 0 ≤ v := by
  unfold layout_from_tokens at h
  cases hli : line_infos toks with
  | nil =>
    rw [hli] at h
    exact extract_total_textonly_nonneg text v h
  | cons i0 is =>
    rw [hli] at h
    exact layout_select_nonneg _ _ text v h

theorem extract_total_layout_nonneg (words : List OcrWord) (text : String)
    (v : ℚ) (h : extract_total_layout words text = some v) : 0 ≤ v := by
  unfold extract_total_layout at h
  cases words with
  | nil => exact extract_total_textonly_nonneg text v h
  | cons w ws =>
    cases hts : (w :: ws).filterMap mkToken with
    | nil =>
      rw [hts] at h
      exact extract_total_textonly_nonneg text v h
    | cons t0 ts =>
      rw [hts] at h
      exact layout_from_tokens_nonneg (t0 :: ts) text v h

/-- C8: total extraction never returns a negative amount.  Both
`extract_total_textonly` and `extract_total_layout` return either nothing or
a value at least 0 (stated via `Option.getD 0`, which is 0 on `none` and the
value on `some`): every amount originates from the unsigned `AMT` capture
group, and every fallback path of the layout-aware extractor ends in the
text-only extractor. -/
theorem extract_total_nonneg (words : List OcrWord) (text : String) :
    0 ≤ (extract_total_textonly text).getD 0 ∧
    0 ≤ (extract_total_layout words text).getD 0 := by
  constructor
  · cases h : extract_total_textonly text with
    | none => exact le_refl 0
    | some v => exact extract_total_textonly_nonneg text v h
  · cases h : extract_total_layout words text with
    | none => exact le_refl 0
    | some v => exact extract_total_layout_nonneg words text v h

/-! ## `extract_date` (parser.py lines 29-34, 349-375)

The date patterns are transcribed as leftmost-first matchers, and
`_try_parse_date` — a call into the external `dateutil` library — is modelled
from `dateutil/parser/_parser.py` (`_ymd.resolve_ymd` with
`dayfirst=True, yearfirst=False`, `convertyear`, fuzzy token skipping, and
`datetime` range validation), with the run date frozen at 2026-10-12 for the
two-digit-year pivot and the missing-component defaults. -/

def digVal (c : Char) : ℕ := c.toNat - 48

def digitChar (n : ℕ) : Char := Char.ofNat (48 + n % 10)

def pad2 (n : ℕ) : List Char := [digitChar (n / 10), digitChar n]

def pad4 (n : ℕ) : List Char :=
  [digitChar (n / 1000), digitChar (n / 100), digitChar (n / 10), digitChar n]

/-- `datetime.date.isoformat`: zero-padded `YYYY-MM-DD`. -/
def isoFormat (y mo d : ℕ) : List Char := pad4 y ++ '-' :: (pad2 mo ++ '-' :: pad2 d)

def isLeap (y : ℕ) : Bool := (y % 4 = 0 && !(y % 100 = 0)) || y % 400 = 0

def daysInMonth (y mo : ℕ) : ℕ :=
  if mo = 2 then (if isLeap y then 29 else 28)
  else if mo = 4 ∨ mo = 6 ∨ mo = 9 ∨ mo = 11 then 30
  else 31

/-- The `datetime(year, month, day)` range checks. -/
def validDate (y mo d : ℕ) : Bool :=
  decide (1 ≤ y) && decide (y ≤ 9999) && decide (1 ≤ mo) && decide (mo ≤ 12)
    && decide (1 ≤ d) && decide (d ≤ daysInMonth y mo)

def mkValidISO (y mo d : ℕ) : Option (List Char) :=
  cond (validDate y mo d) (some (isoFormat y mo d)) none

/-- `parserinfo.convertyear` for the run year 2026: two-digit years without a
specified century land in 1976-2075. -/
def convertyear (y : ℕ) (century : Bool) : ℕ :=
  if y < 100 && !century then
    if 2076 ≤ y + 2000 then y + 1900 else y + 2000
  else y

def DATE_HINTS : List String :=
  ["date", "txn date", "transaction date", "billing date", "issued", "due date",
   "period", "period covered", "statement date"]

def hasDateHint (l : List Char) : Bool :=
  DATE_HINTS.any (fun h => containsL h.data (lowerL l))

def sepDM (c : Char) : Bool := c = '-' || c = '/'

/-- `\d{1,2}` and a `-` or `/` separator, greedy with backtracking: returns the value and the rest
after the separator. -/
def twoDigitSep : List Char → Option (ℕ × List Char)
  | a :: b :: c :: rest =>
      if a.isDigit then
        if b.isDigit && sepDM c then some (10 * digVal a + digVal b, rest)
        else if sepDM b then some (digVal a, c :: rest)
        else none
      else none
  | [a, b] => if a.isDigit && sepDM b then some (digVal a, []) else none
  | _ => none

/-- A final `\d{1,2}`, greedy. -/
def twoDigitEnd : List Char → Option ℕ
  | a :: b :: _ =>
      if a.isDigit then
        if b.isDigit then some (10 * digVal a + digVal b) else some (digVal a)
      else none
  | [a] => if a.isDigit then some (digVal a) else none
  | [] => none

/-- A final `\d{2,4}`, greedy: value and digit count. -/
def twoFourEnd : List Char → Option (ℕ × ℕ)
  | a :: b :: c :: d :: _ =>
      if a.isDigit && b.isDigit then
        if c.isDigit then
          if d.isDigit then
            some (1000 * digVal a + 100 * digVal b + 10 * digVal c + digVal d, 4)
          else some (100 * digVal a + 10 * digVal b + digVal c, 3)
        else some (10 * digVal a + digVal b, 2)
      else none
  | [a, b, c] =>
      if a.isDigit && b.isDigit then
        if c.isDigit then some (100 * digVal a + 10 * digVal b + digVal c, 3)
        else some (10 * digVal a + digVal b, 2)
      else none
  | [a, b] => if a.isDigit && b.isDigit then some (10 * digVal a + digVal b, 2) else none
  | _ => none

/-- `DATE_PATTERNS[0]`, `\d{4} sep \d{1,2} sep \d{1,2}` with `-` or `/` separators, anchored at the head:
the three numeric components. -/
def p1MatchAt : List Char → Option (ℕ × ℕ × ℕ)
  | a :: b :: c :: d :: s1 :: rest =>
      if a.isDigit && b.isDigit && c.isDigit && d.isDigit && sepDM s1 then
        match twoDigitSep rest with
        | some (t1, rest2) =>
            match twoDigitEnd rest2 with
            | some t2 =>
                some (1000 * digVal a + 100 * digVal b + 10 * digVal c + digVal d, t1, t2)
            | none => none
        | none => none
      else none
  | _ => none

/-- `re.search` for the first date pattern: leftmost match. -/
def p1Search : List Char → Option (ℕ × ℕ × ℕ)
  | [] => none
  | c :: rest =>
      match p1MatchAt (c :: rest) with
      | some r => some r
      | none => p1Search rest

/-- `DATE_PATTERNS[1]`, `\d{1,2} sep \d{1,2} sep \d{2,4}` with `-` or `/`
separators, anchored at the head: the three numeric components and the digit count of the last. -/
def p2MatchAt (l : List Char) : Option (ℕ × ℕ × ℕ × ℕ) :=
  match twoDigitSep l with
  | none => none
  | some (t0, rest) =>
      match twoDigitSep rest with
      | none => none
      | some (t1, rest2) =>
          match twoFourEnd rest2 with
          | some (t2, n2) => some (t0, t1, t2, n2)
          | none => none

def p2Search : List Char → Option (ℕ × ℕ × ℕ × ℕ)
  | [] => none
  | c :: rest =>
      match p2MatchAt (c :: rest) with
      | some r => some r
      | none => p2Search rest

def monthPrefixes : List String :=
  ["jan", "feb", "mar", "apr", "may", "jun", "jul", "aug", "sep", "oct", "nov", "dec"]

/-- The month names and abbreviations recognised by `dateutil.parserinfo`. -/
def MONTH_NAMES : List (String × ℕ) :=
  [("jan", 1), ("january", 1), ("feb", 2), ("february", 2), ("mar", 3), ("march", 3),
   ("apr", 4), ("april", 4), ("may", 5), ("jun", 6), ("june", 6), ("jul", 7),
   ("july", 7), ("aug", 8), ("august", 8), ("sep", 9), ("sept", 9),
   ("september", 9), ("oct", 10), ("october", 10), ("nov", 11), ("november", 11),
   ("dec", 12), ("december", 12)]

def monthLookup (word : List Char) : Option ℕ :=
  MONTH_NAMES.findSome? (fun p => if lowerL word = p.1.data then some p.2 else none)

/-- `,?\s+\d{2,4}` after the day digits. -/
def commaWsNum (r : List Char) : Option (ℕ × ℕ) :=
  let r2 := match r with | ',' :: rr => rr | _ => r
  let w := (r2.takeWhile wsChar).length
  if w = 0 then none else twoFourEnd (r2.drop w)

/-- `\d{1,2},?\s+\d{2,4}`, greedy with backtracking on the day digits. -/
def p3Tail : List Char → Option (ℕ × ℕ × ℕ)
  | a :: b :: rest =>
      if a.isDigit then
        match (if b.isDigit then
                 match commaWsNum rest with
                 | some (t2, n2) => some (10 * digVal a + digVal b, t2, n2)
                 | none => none
               else none) with
        | some x => some x
        | none =>
            match commaWsNum (b :: rest) with
            | some (t2, n2) => some (digVal a, t2, n2)
            | none => none
      else none
  | _ => none

/-- `DATE_PATTERNS[2]` anchored at the head (IGNORECASE): a three-letter month
prefix, trailing letters, whitespace, the day digits, an optional comma,
whitespace, the year digits.  The word is looked up among the recognised
month names; an unrecognised word is reported as `none` (dateutil drops it in
fuzzy mode). -/
def p3MatchAt (l : List Char) : Option (Option ℕ × ℕ × ℕ × ℕ) :=
  if monthPrefixes.any (fun m => m.data.isPrefixOf (lowerL l)) then
    let word := l.take 3 ++ (l.drop 3).takeWhile Char.isAlpha
    let rest := l.drop word.length
    let w := (rest.takeWhile wsChar).length
    if w = 0 then none
    else
      match p3Tail (rest.drop w) with
      | some (t1, t2, n2) => some (monthLookup word, t1, t2, n2)
      | none => none
  else none

def p3Search : List Char → Option (Option ℕ × ℕ × ℕ × ℕ)
  | [] => none
  | c :: rest =>
      match p3MatchAt (c :: rest) with
      | some r => some r
      | none => p3Search rest

/-- `_try_parse_date` on a first-pattern match: the four-digit first token
makes `ystridx = 0`, so `resolve_ymd` yields `year, day, month` when the last
token is at most 12 (the dayfirst swap) and `year, month, day` otherwise; the
century is always specified. -/
def tryParseP1 (r : ℕ × ℕ × ℕ) : Option (List Char) :=
  if r.2.2 ≤ 12 then mkValidISO r.1 r.2.2 r.2.1 else mkValidISO r.1 r.2.1 r.2.2

/-- `_try_parse_date` on a second-pattern match (`mstridx` none, `ystridx`
only ever 2): the numeric branch of `resolve_ymd` under `dayfirst`. -/
def tryParseP2 (r : ℕ × ℕ × ℕ × ℕ) : Option (List Char) :=
  let t0 := r.1
  let t1 := r.2.1
  let t2 := r.2.2.1
  let century := decide (2 < r.2.2.2)
  if 31 < t0 then
    if t2 ≤ 12 then mkValidISO (convertyear t0 century) t2 t1
    else mkValidISO (convertyear t0 century) t1 t2
  else if 12 < t0 ∨ t1 ≤ 12 then
    mkValidISO (convertyear t2 century) t1 t0
  else
    mkValidISO (convertyear t2 century) t0 t1

/-- `_try_parse_date` on a third-pattern match.  A recognised month word sets
`mstridx = 0`; with a 3-4 digit year (`ystridx = 2`) the middle token is the
day, else `resolve_ymd` branches on the middle token.  An unrecognised word
is dropped by fuzzy parsing, leaving two numbers resolved with the run-date
defaults (year 2026, day 12). -/
def tryParseP3 (r : Option ℕ × ℕ × ℕ × ℕ) : Option (List Char) :=
  let t1 := r.2.1
  let t2 := r.2.2.1
  let century := decide (2 < r.2.2.2)
  match r.1 with
  | some mo =>
      if 2 < r.2.2.2 then mkValidISO t2 mo t1
      else if 31 < t1 then mkValidISO (convertyear t1 century) mo t2
      else mkValidISO (convertyear t2 century) mo t1
  | none =>
      if 31 < t1 then mkValidISO (convertyear t1 century) t2 12
      else if 31 < t2 then mkValidISO (convertyear t2 century) t1 12
      else if t2 ≤ 12 then mkValidISO 2026 t2 t1
      else mkValidISO 2026 t1 t2

/-- The inner pattern loop of `extract_date` (lines 362-367): each pattern in
order, first match, parse; a failed parse moves to the next pattern. -/
def dateFromLook (look : List Char) : Option (List Char) :=
  match (match p1Search look with
         | some r => tryParseP1 r
         | none => none) with
  | some iso => some iso
  | none =>
      match (match p2Search look with
             | some r => tryParseP2 r
             | none => none) with
      | some iso => some iso
      | none =>
          match p3Search look with
          | some r => tryParseP3 r
          | none => none

/-- `extract_date` (lines 356-375): scan the stripped non-empty lines; on a
line with a date hint probe the line and then the next line (an off-the-end
next line reads as the empty string); afterwards fall back to a global probe
of the raw text. -/
def extract_date (text : String) : Option String :=
  let lines := pyLines text
  match lines.enum.findSome? (fun p =>
      cond (hasDateHint p.2)
        (match dateFromLook p.2 with
         | some iso => some iso
         | none => dateFromLook (lines.getD (p.1 + 1) []))
        none) with
  | some iso => some (String.mk iso)
  | none =>
      match dateFromLook text.data with
      | some iso => some (String.mk iso)
      | none => none

/-- C7 counterexample: the hint line "DATE: 2024-01-02" embeds a valid ISO
date, yet the dayfirst parser reads its last component (at most 12) as the
month, so extract_date returns 2024-02-01, not the embedded date. -/
theorem extract_date_cex :
    hasDateHint "DATE: 2024-01-02".data = true ∧
    validDate 2024 1 2 = true ∧
    extract_date "DATE: 2024-01-02" = some "2024-02-01" ∧
    some ("2024-02-01" : String) ≠ some "2024-01-02" :=
  ⟨by decide, by decide, by decide, by decide⟩

/-- C7: amended.  Wherever the first line carrying a date-context hint
appears among the stripped non-empty lines, if its leftmost
`YYYY-MM-DD`-pattern match has a day component strictly greater than 12 and
denotes a valid calendar date, extract_date returns exactly that date in ISO
form; for a day of at most 12 the dayfirst parser instead swaps month and
day (counterexample). -/
theorem extract_date_amended (text : String) (pre : List (List Char)) (l : List Char)
    (rest : List (List Char))
    (hl : pyLines text = pre ++ l :: rest)
    (hpre : ∀ p ∈ pre, hasDateHint p = false)
    (hhint : hasDateHint l = true)
    (y t1 t2 : ℕ)
    (hmatch : p1Search l = some (y, t1, t2))
    (hd : 12 < t2)
    (hvalid : validDate y t1 t2 = true) :
    extract_date text = some (String.mk (isoFormat y t1 t2)) := by
  have hdfl : dateFromLook l = some (isoFormat y t1 t2) := by
    simp only [dateFromLook, hmatch, tryParseP1]
    rw [if_neg (not_le.mpr hd)]
    simp only [mkValidISO, hvalid, cond_true]
  have hscan : ∀ (k : ℕ) (pr : List (List Char)), (∀ p ∈ pr, hasDateHint p = false) →
      ((pr ++ l :: rest).enumFrom k).findSome? (fun p =>
        cond (hasDateHint p.2)
          (match dateFromLook p.2 with
           | some iso => some iso
           | none => dateFromLook ((pre ++ l :: rest).getD (p.1 + 1) []))
          none) = some (isoFormat y t1 t2) := by
    intro k pr
    induction pr generalizing k with
    | nil =>
      intro _
      simp only [List.nil_append, List.enumFrom_cons, List.findSome?_cons, hhint,
        cond_true, hdfl]
    | cons q qs ih =>
      intro hq
      have h1 : hasDateHint q = false := hq q (List.mem_cons_self q qs)
      simp only [List.cons_append, List.enumFrom_cons, List.findSome?_cons, h1, cond_false]
      exact ih (k + 1) (fun p hp => hq p (List.mem_cons_of_mem q hp))
  simp only [extract_date, hl]
  rw [show (pre ++ l :: rest).enum = (pre ++ l :: rest).enumFrom 0 from rfl,
    hscan 0 pre hpre]

/-- The amended selection at a concrete two-line receipt whose second line is
the first hint line: the day 15 exceeds 12, so the embedded ISO date comes
back unchanged. -/
theorem extract_date_amended_witness :
    extract_date "JOLLIBEE STORE\nDATE: 2024-01-15"
        = some (String.mk (isoFormat 2024 1 15)) ∧
    String.mk (isoFormat 2024 1 15) = "2024-01-15" :=
  ⟨extract_date_amended "JOLLIBEE STORE\nDATE: 2024-01-15" ["JOLLIBEE STORE".data]
      "DATE: 2024-01-15".data [] (by decide) (by decide) (by decide) 2024 1 15
      (by decide) (by decide) (by decide),
   by decide⟩

end Spendle






